import Mathlib

/-!
Verification of the core expression engine of the exmex repository
(parser and tree builder, simplifier, priority-respecting evaluator,
flat form).  The Rust sources under src/src are embedded shallowly:
generic scalars become a type parameter T, SmallVec and Vec become
List, &str becomes String, fallible functions return Except.
Code of the repository that is referenced but absent from src
(the tokenizer helpers, the flat-evaluation details) is modelled
from the spec; such definitions say so in their doc comment.
-/

namespace Exmex

/-- Error type: one error kind carrying a human-readable message
(result.rs, re-exported as ExError). -/
structure ExError where
  msg : String
  deriving Repr, DecidableEq

/-- A binary operator: apply function, integer priority, commutativity
flag (operators.rs BinOp; the struct is shown verbatim in the doc
examples of src/src/lib.rs). -/
structure BinOp (T : Type) where
  apply : T → T → T
  prio : Int
  is_commutative : Bool

/-- Composition of unary functions, first element outermost
(operators.rs UnaryOp; the spec calls it the unary prefix, an ordered
composition of unary functions, outermost first). -/
abbrev UnaryOp (T : Type) : Type := List (T → T)

/-- Application of a unary composition, outermost first. -/
def UnaryOp.applyAll : UnaryOp T → T → T
  | [], x => x
  | f :: fs, x => f (UnaryOp.applyAll fs x)

/-- Binary operators of one expression together with their textual
representations (deep.rs BinOpsWithReprs). -/
structure BinOpsWithReprs (T : Type) where
  reprs : List String
  ops : List (BinOp T)

/-- Empty binary operator list (deep.rs BinOpsWithReprs::new). -/
def BinOpsWithReprs.new : BinOpsWithReprs T := ⟨[], []⟩

/-- Unary operator composition of one expression together with the
textual representations (deep.rs UnaryOpWithReprs). -/
structure UnaryOpWithReprs (T : Type) where
  reprs : List String
  op : UnaryOp T

/-- Empty unary composition (deep.rs UnaryOpWithReprs::new). -/
def UnaryOpWithReprs.new : UnaryOpWithReprs T := ⟨[], []⟩

/-- Prepend another unary composition in front (outermost) of this one
(deep.rs UnaryOpWithReprs::append_front). -/
def UnaryOpWithReprs.append_front (self other : UnaryOpWithReprs T) :
    UnaryOpWithReprs T :=
  ⟨other.reprs ++ self.reprs, other.op ++ self.op⟩

mutual
/-- A deep node is an expression, a number, or a variable
(deep.rs DeepNode). -/
inductive DeepNode (T : Type) : Type where
  | Num : T → DeepNode T
  | Var : Nat → String → DeepNode T
  | Expr : DeepEx T → DeepNode T

/-- A deep expression: child nodes, binary operators between
consecutive children, a unary prefix, and the variable names
(deep.rs DeepEx).  The two WithReprs wrappers are inlined as pairs of
parallel list fields. -/
inductive DeepEx (T : Type) : Type where
  | mk (nodes : List (DeepNode T)) (binReprs : List String)
       (binOps : List (BinOp T)) (unaryReprs : List String)
       (unaryOp : UnaryOp T) (varNames : List String) : DeepEx T
end

/-- Child nodes of a deep expression. -/
def DeepEx.nodes : DeepEx T → List (DeepNode T)
  | .mk n _ _ _ _ _ => n

/-- Textual representations of the binary operators. -/
def DeepEx.binReprs : DeepEx T → List String
  | .mk _ r _ _ _ _ => r

/-- Binary operators of a deep expression. -/
def DeepEx.binOps : DeepEx T → List (BinOp T)
  | .mk _ _ b _ _ _ => b

/-- Textual representations of the unary prefix. -/
def DeepEx.unaryReprs : DeepEx T → List String
  | .mk _ _ _ u _ _ => u

/-- Unary prefix of a deep expression. -/
def DeepEx.unaryOp : DeepEx T → UnaryOp T
  | .mk _ _ _ _ u _ => u

/-- Variable names of a deep expression. -/
def DeepEx.varNames : DeepEx T → List String
  | .mk _ _ _ _ _ v => v

/-- Effective priority of a binary operator position: the raw priority
times 10, plus 5 when both neighboring nodes are literals and the
operator is commutative (deep_details.rs prioritized_indices,
closure prio_increase). -/
def prioIncrease (binOps : List (BinOp T)) (nodes : List (DeepNode T))
    (binOpIdx : Nat) : Int :=
  match binOps.get? binOpIdx with
  | none => 0
  | some op =>
    match nodes.get? binOpIdx, nodes.get? (binOpIdx + 1) with
    | some (.Num _), some (.Num _) =>
        if op.is_commutative then op.prio * 10 + 5 else op.prio * 10
    | _, _ => op.prio * 10

/-- Indices of binary operator positions sorted by decreasing effective
priority; the sort is stable as in Rust slice::sort_by
(deep_details.rs prioritized_indices).  Stable descending sort is
realized by insertion sort with the relation that keeps an earlier
element in front whenever its key is at least as large. -/
def prioritizedIndices (binOps : List (BinOp T))
    (nodes : List (DeepNode T)) : List Nat :=
  List.insertionSort
    (fun i j => prioIncrease binOps nodes j ≤ prioIncrease binOps nodes i)
    (List.range binOps.length)

mutual
/-- Node lifting (deep.rs lift_nodes).  When the expression has exactly
one child, no unary prefix, and the child is a nested expression, the
child replaces the whole expression; otherwise each child is rewritten
by the loop body. -/
def liftNodes : DeepEx T → DeepEx T
  | .mk ns br bo ur uo vn =>
    match ns, uo with
    | [DeepNode.Expr inner], [] => inner
    | _, _ =>
      if ns.length = 1 ∧ uo.isEmpty then .mk ns br bo ur uo vn
      else .mk (liftChildren ns) br bo ur uo vn

/-- The for loop of lift_nodes over the child nodes. -/
def liftChildren : List (DeepNode T) → List (DeepNode T)
  | [] => []
  | n :: ns => liftChild n :: liftChildren ns

/-- The loop body of lift_nodes: a nested expression child with a
single node and no unary prefix is unwrapped; a number or variable is
inlined, a deeper expression is lifted first and hoisted when it still
qualifies. -/
def liftChild : DeepNode T → DeepNode T
  | .Expr (.mk [inner0] br bo ur [] vn) =>
    match inner0 with
    | .Num n => .Num n
    | .Var i s => .Var i s
    | .Expr eDeeper =>
      match liftNodes eDeeper with
      | .mk edns edbr edbo edur eduo edvn =>
        if edns.length = 1 ∧ eduo.isEmpty then
          .Expr (.mk edns edbr edbo edur eduo edvn)
        else
          .Expr (.mk [DeepNode.Expr (.mk edns edbr edbo edur eduo edvn)]
            br bo ur [] vn)
  | n => n
end

/-- The constant folding loop of DeepEx::compile (deep.rs lines
171 to 194).  The first argument pairs each prioritized binary operator
index with its current node position; after a fold the positions of the
remaining iterations that lie right of the removed slot are reduced by
one, exactly as the num_inds bookkeeping does. -/
def foldLoopFuel (binOps : List (BinOp T)) :
    Nat → List (Nat × Nat) → List (DeepNode T) → List Bool → List Nat →
    List (DeepNode T) × List Bool × List Nat
  | _, [], nodes, declined, used => (nodes, declined, used)
  | 0, _ :: _, nodes, declined, used => (nodes, declined, used)
  | fuel + 1, (binOpIdx, numIdx) :: rest, nodes, declined, used =>
    match nodes.get? numIdx, nodes.get? (numIdx + 1) with
    | some (.Num n1), some (.Num n2) =>
      if declined.getD numIdx false ∨ declined.getD (numIdx + 1) false then
        foldLoopFuel binOps fuel rest nodes declined used
      else
        match binOps.get? binOpIdx with
        | some op =>
          foldLoopFuel binOps fuel
            (rest.map fun p => if numIdx < p.2 then (p.1, p.2 - 1) else p)
            ((nodes.set numIdx (.Num (op.apply n1 n2))).eraseIdx (numIdx + 1))
            (declined.eraseIdx (numIdx + 1))
            (used ++ [binOpIdx])
        | none => foldLoopFuel binOps fuel rest nodes declined used
    | _, _ =>
      foldLoopFuel binOps fuel rest nodes
        ((declined.set numIdx true).set (numIdx + 1) true) used

/-- The folding loop, run with fuel equal to the number of prioritized
positions; the decrement map keeps the list length unchanged, so the
fuel is exact and the loop always processes the whole list. -/
def foldLoop (binOps : List (BinOp T)) (pairs : List (Nat × Nat))
    (nodes : List (DeepNode T)) (declined : List Bool) (used : List Nat) :
    List (DeepNode T) × List Bool × List Nat :=
  foldLoopFuel binOps pairs.length pairs nodes declined used

/-- Simplification of an expression (deep.rs DeepEx::compile): lifting,
then constant folding of the binary operator positions in prioritized
order, removal of the used binary operators, and absorption of the
unary prefix when a single literal remains. -/
def DeepEx.compile (e0 : DeepEx T) : DeepEx T :=
  match liftNodes e0 with
  | .mk ns br bo ur uo vn =>
    let prio := prioritizedIndices bo ns
    let res := foldLoop bo (prio.zip prio) ns (List.replicate ns.length false) []
    let nodes1 := res.1
    let used := res.2.2
    let kept := (List.range bo.length).filter (fun i => ¬ used.contains i)
    let ops1 := kept.filterMap (fun i => bo.get? i)
    let reprs1 := kept.filterMap (fun i => br.get? i)
    match nodes1 with
    | [DeepNode.Num n] =>
        .mk [DeepNode.Num (UnaryOp.applyAll uo n)] reprs1 ops1 [] [] vn
    | _ => .mk nodes1 reprs1 ops1 ur uo vn

/-- Append names not yet contained, keeping order of first appearance
(the inner loop of the found_vars collection of DeepEx::new). -/
def addVarNames : List String → List String → List String
  | [], acc => acc
  | n :: ns, acc => addVarNames ns (if acc.contains n then acc else acc ++ [n])

/-- Collect variable names of direct children in order of first
appearance, without duplicates (the found_vars loop of DeepEx::new). -/
def collectFoundVars : List (DeepNode T) → List String → List String
  | [], acc => acc
  | .Num _ :: rest, acc => collectFoundVars rest acc
  | .Var _ name :: rest, acc =>
      collectFoundVars rest (if acc.contains name then acc else acc ++ [name])
  | .Expr e :: rest, acc => collectFoundVars rest (addVarNames e.varNames acc)

/-- Lexicographic comparison of character lists by Unicode scalar
value; this is the order Rust Ord places on str, since UTF-8 byte
order coincides with scalar value order. -/
def charsLe : List Char → List Char → Bool
  | [], _ => true
  | _ :: _, [] => false
  | a :: as, b :: bs =>
    if a.toNat < b.toNat then true
    else if b.toNat < a.toNat then false
    else charsLe as bs

/-- Lexicographic order on variable names. -/
def strLe (a b : String) : Bool := charsLe a.data b.data

/-- Construction of a deep expression (deep.rs DeepEx::new): fails when
the node count does not equal the binary operator count plus one;
otherwise collects and sorts the variable names and compiles. -/
def DeepEx.new (nodes : List (DeepNode T)) (bin_ops : BinOpsWithReprs T)
    (unary_op : UnaryOpWithReprs T) : Except ExError (DeepEx T) :=
  if nodes.length ≠ bin_ops.ops.length + 1 then
    .error ⟨"mismatch between number of nodes and binary operators"⟩
  else
    .ok (DeepEx.compile
      (.mk nodes bin_ops.reprs bin_ops.ops unary_op.reprs unary_op.op
        (List.insertionSort (fun a b => strLe a b = true)
          (collectFoundVars nodes []))))

/-- Scan left from a start position, skipping ignored slots
(the shift_left loop of eval in deep.rs lines 602 to 605). -/
def shiftLeftIdx (ignore : List Bool) : Nat → Nat
  | 0 => 0
  | k + 1 => if ignore.getD (k + 1) false then shiftLeftIdx ignore k else k + 1

/-- Scan right from a start position, skipping ignored slots
(the shift_right loop of eval in deep.rs lines 606 to 609).  The first
argument is fuel; slots beyond the list are not ignored, so fuel equal
to the list length always suffices. -/
def shiftRightIdx (ignore : List Bool) : Nat → Nat → Nat
  | 0, cur => cur
  | fuel + 1, cur =>
    if ignore.getD cur false then shiftRightIdx ignore fuel (cur + 1) else cur

/-- The binary reduction loop of eval (deep.rs lines 600 to 614): for
each prioritized index, find the left and right neighbor slots that are
not yet consumed, combine them into the left slot and mark the right
slot consumed. -/
def evalLoop [Inhabited T] (binOps : List (BinOp T)) :
    List Nat → List T → List Bool → List T
  | [], numbers, _ => numbers
  | idx :: rest, numbers, ignore =>
    let l := shiftLeftIdx ignore idx
    let r := shiftRightIdx ignore (ignore.length + 1) (idx + 1)
    let v := match binOps.get? idx with
      | some op => op.apply (numbers.getD l default) (numbers.getD r default)
      | none => default
    evalLoop binOps rest (numbers.set l v) (ignore.set r true)

mutual
/-- Evaluation of a deep expression on a binding slice
(deep.rs eval, lines 583 to 616). -/
def DeepEx.evalDeep [Inhabited T] : DeepEx T → List T → T
  | .mk ns _ bo _ uo _, vars =>
    let numbers := evalNodes ns vars
    let prio := prioritizedIndices bo ns
    UnaryOp.applyAll uo
      ((evalLoop bo prio numbers (List.replicate ns.length false)).getD 0 default)

/-- Materialization of per node scalar values: literals verbatim,
variables by lookup, nested expressions recursively. -/
def evalNodes [Inhabited T] : List (DeepNode T) → List T → List T
  | [], _ => []
  | .Num n :: rest, vars => n :: evalNodes rest vars
  | .Var i _ :: rest, vars => vars.getD i default :: evalNodes rest vars
  | .Expr e :: rest, vars => DeepEx.evalDeep e vars :: evalNodes rest vars
end

/-- Interleave node strings with binary operator representations
(the fold of unparse_raw in deep.rs lines 418 to 423). -/
def joinNodeStrings (first : String) :
    List String → List String → String
  | [], _ => first
  | s :: ss, reprs => joinNodeStrings (first ++ reprs.headD "" ++ s) ss reprs.tail

mutual
/-- Deterministic textual form of a deep expression
(deep.rs DeepEx::unparse_raw).  Literal formatting of the scalar type
(the Debug format in Rust) is passed in as fmt. -/
def DeepEx.unparse_raw (fmt : T → String) : DeepEx T → String
  | .mk ns br _ ur uo _ =>
    let nodeStrings := unparseNodes fmt ns
    let body := joinNodeStrings (nodeStrings.headD "") nodeStrings.tail br
    let opens := String.join (ur.map (fun r => r ++ "("))
    let closings := String.join (List.replicate uo.length ")")
    if uo.length = 0 then body else opens ++ body ++ closings

/-- Textual form of one node: numbers by the literal formatter,
variables in curly braces, nested expressions in parentheses when they
have no unary prefix. -/
def unparseNodes (fmt : T → String) : List (DeepNode T) → List String
  | [] => []
  | .Num n :: rest => fmt n :: unparseNodes fmt rest
  | .Var _ name :: rest =>
      ("\x7b" ++ name ++ "\x7d") :: unparseNodes fmt rest
  | .Expr e :: rest =>
      (if e.unaryOp.length = 0
        then "(" ++ DeepEx.unparse_raw fmt e ++ ")"
        else DeepEx.unparse_raw fmt e) :: unparseNodes fmt rest
end

/-- Modelled from the spec: operators.rs is not under src.  An operator
has a textual representation and optionally a binary and a unary
application (spec section 3, Operator; constants are resolved during
tokenization and do not reach the tree builder). -/
structure Operator (T : Type) where
  opRepr : String
  bin_op : Option (BinOp T)
  unary_fn : Option (T → T)

/-- Whether the operator has a unary application (operators.rs
Operator::has_unary, modelled from the spec). -/
def Operator.has_unary (op : Operator T) : Bool := op.unary_fn.isSome

/-- The binary application or an error (operators.rs Operator::bin,
modelled from the spec). -/
def Operator.bin (op : Operator T) : Except ExError (BinOp T) :=
  match op.bin_op with
  | some b => .ok b
  | none => .error ⟨"operator has no binary application"⟩

/-- The unary application or an error (operators.rs Operator::unary,
modelled from the spec). -/
def Operator.unary (op : Operator T) : Except ExError (T → T) :=
  match op.unary_fn with
  | some f => .ok f
  | none => .error ⟨"operator has no unary application"⟩

/-- Parenthesis shape (parser.rs Paren, modelled from the spec). -/
inductive Paren : Type where
  | Open : Paren
  | Close : Paren
  deriving Repr, DecidableEq

/-- Modelled from the spec: parser.rs is not under src.  A parsed token
is a literal value, a variable name, an operator reference, or a
parenthesis (spec section 3, Token). -/
inductive ParsedToken (T : Type) : Type where
  | Num : T → ParsedToken T
  | Var : String → ParsedToken T
  | Op : Operator T → ParsedToken T
  | Paren : Paren → ParsedToken T

/-- Modelled from the spec: parser.rs is not under src.  An operator
resolves to binary exactly when the preceding token is a literal, a
variable, or a closing parenthesis (spec section 4.3). -/
def is_operator_binary (_op : Operator T) (prev : ParsedToken T) :
    Except ExError Bool :=
  match prev with
  | .Num _ => .ok true
  | .Var _ => .ok true
  | .Paren .Close => .ok true
  | _ => .ok false

/-- Modelled from the spec: parser.rs is not under src.  Variable
indices are resolved against the outer lexicographically sorted
variable list (spec section 4.4); the index of a name is its position
in that list. -/
def find_var_index (name : String) (parsed_vars : List String) : Nat :=
  parsed_vars.indexOf name

/-- Gather the consecutive unary capable operators following the first
one (the take_while iterator of process_unary in deep_details.rs). -/
def gatherUnaryChain : List (ParsedToken T) → List (String × (T → T))
  | .Op op :: rest =>
    (match op.unary_fn with
     | some f => (op.opRepr, f) :: gatherUnaryChain rest
     | none => [])
  | _ => []

mutual
/-- Recursive descent over a validated token slice
(deep_details.rs make_expression).  Recursion is fueled; every
recursive call strictly decreases the fuel, and the real call sites
supply enough fuel for any token list. -/
def makeExpression (fuel : Nat) (tokens : List (ParsedToken T))
    (parsed_vars : List String) (unary_ops : UnaryOpWithReprs T) :
    Except ExError (DeepEx T × Nat) :=
  match fuel with
  | 0 => .error ⟨"fuel exhausted"⟩
  | fuel + 1 => do
    let (nodes, reprs, bops, idx) ← makeExpressionLoop fuel tokens parsed_vars 0 [] [] []
    let e ← DeepEx.new nodes ⟨reprs, bops⟩ unary_ops
    .ok (e, idx)

/-- The main while loop of make_expression: one token after the next,
with sub-expressions handled recursively. -/
def makeExpressionLoop (fuel : Nat) (tokens : List (ParsedToken T))
    (parsed_vars : List String) (idx : Nat) (nodes : List (DeepNode T))
    (reprs : List String) (bops : List (BinOp T)) :
    Except ExError (List (DeepNode T) × List String × List (BinOp T) × Nat) :=
  match fuel with
  | 0 => .error ⟨"fuel exhausted"⟩
  | fuel + 1 =>
    match tokens.get? idx with
    | none => .ok (nodes, reprs, bops, idx)
    | some (.Op op) =>
      match (if idx > 0 then tokens.get? (idx - 1) else none) with
      | some prevTk => do
        let isBin ← is_operator_binary op prevTk
        if isBin then do
          let b ← op.bin
          makeExpressionLoop fuel tokens parsed_vars (idx + 1) nodes
            (reprs ++ [op.opRepr]) (bops ++ [b])
        else do
          let u ← op.unary
          let (node, fwd) ← processUnary fuel idx u op.opRepr tokens parsed_vars
          makeExpressionLoop fuel tokens parsed_vars (idx + fwd)
            (nodes ++ [node]) reprs bops
      | none => do
        let u ← op.unary
        let (node, fwd) ← processUnary fuel idx u op.opRepr tokens parsed_vars
        makeExpressionLoop fuel tokens parsed_vars (idx + fwd)
          (nodes ++ [node]) reprs bops
    | some (.Num n) =>
        makeExpressionLoop fuel tokens parsed_vars (idx + 1)
          (nodes ++ [.Num n]) reprs bops
    | some (.Var name) =>
        makeExpressionLoop fuel tokens parsed_vars (idx + 1)
          (nodes ++ [.Var (find_var_index name parsed_vars) name]) reprs bops
    | some (.Paren .Open) => do
        let (expr, fwd) ← makeExpression fuel (tokens.drop (idx + 1))
          parsed_vars UnaryOpWithReprs.new
        makeExpressionLoop fuel tokens parsed_vars (idx + 1 + fwd)
          (nodes ++ [.Expr expr]) reprs bops
    | some (.Paren .Close) => .ok (nodes, reprs, bops, idx + 1)

/-- Handling of a token in unary position
(deep_details.rs process_unary): gather the chain of consecutive unary
operators, then apply it to the following parenthesized expression,
variable, or literal. -/
def processUnary (fuel : Nat) (token_idx : Nat) (unary_op : T → T)
    (uRepr : String) (tokens : List (ParsedToken T))
    (parsed_vars : List String) : Except ExError (DeepNode T × Nat) :=
  match fuel with
  | 0 => .error ⟨"fuel exhausted"⟩
  | fuel + 1 =>
    let chain := gatherUnaryChain (tokens.drop (token_idx + 1))
    let uopReprs : List String := uRepr :: chain.map Prod.fst
    let uops : UnaryOp T := unary_op :: chain.map Prod.snd
    let nUops := uops.length
    match tokens.get? (token_idx + nUops) with
    | some (.Paren _) => do
      let (expr, fwd) ← makeExpression fuel (tokens.drop (token_idx + nUops + 1))
        parsed_vars ⟨uopReprs, uops⟩
      .ok (.Expr expr, fwd + nUops + 1)
    | some (.Var name) => do
      let e ← DeepEx.new [.Var (find_var_index name parsed_vars) name]
        BinOpsWithReprs.new ⟨uopReprs, uops⟩
      .ok (.Expr e, nUops + 1)
    | some (.Num n) => .ok (.Num (UnaryOp.applyAll uops n), nUops + 1)
    | _ => .error ⟨"Invalid parsed token configuration"⟩
end

mutual
/-- Modelled from the spec: flat_details.rs is not under src.  A flat
node is a literal, a variable index, or a nested flat sub-expression
carrying its own unary prefix (spec sections 3 and 4.7). -/
inductive FlatNode (T : Type) : Type where
  | Num : T → FlatNode T
  | Var : Nat → FlatNode T
  | Sub : FlatSub T → FlatNode T

/-- Modelled from the spec: a nested flat sub-expression, recursively
flattened into a compound node with its own precomputed priority
permutation and unary prefix (spec section 4.7). -/
inductive FlatSub (T : Type) : Type where
  | mk (nodes : List (FlatNode T)) (ops : List (BinOp T))
       (prio_indices : List Nat) (unary : UnaryOp T) : FlatSub T
end

/-- Effective priority of a flat binary operator position, literal
neighbors checked on flat nodes (modelled from the spec, section 4.6,
for flat_details.rs prioritized_indices_flat). -/
def prioIncreaseFlat (binOps : List (BinOp T)) (nodes : List (FlatNode T))
    (binOpIdx : Nat) : Int :=
  match binOps.get? binOpIdx with
  | none => 0
  | some op =>
    match nodes.get? binOpIdx, nodes.get? (binOpIdx + 1) with
    | some (.Num _), some (.Num _) =>
        if op.is_commutative then op.prio * 10 + 5 else op.prio * 10
    | _, _ => op.prio * 10

/-- Modelled from the spec: the priority permutation of the flat form,
computed once at flatten time (spec section 4.7, for
flat_details.rs prioritized_indices_flat). -/
def prioritizedIndicesFlat (binOps : List (BinOp T))
    (nodes : List (FlatNode T)) : List Nat :=
  List.insertionSort
    (fun i j => prioIncreaseFlat binOps nodes j ≤ prioIncreaseFlat binOps nodes i)
    (List.range binOps.length)

mutual
/-- Modelled from the spec: each deep child becomes a literal node, a
variable index node, or a recursively flattened compound node (spec
section 4.7, for flat_details.rs flatten_vecs). -/
def flattenNodes : List (DeepNode T) → List (FlatNode T)
  | [] => []
  | .Num n :: r => .Num n :: flattenNodes r
  | .Var i _ :: r => .Var i :: flattenNodes r
  | .Expr e :: r => .Sub (flattenSub e) :: flattenNodes r

/-- Modelled from the spec: the compound node of a nested expression. -/
def flattenSub : DeepEx T → FlatSub T
  | .mk ns _ bo _ uo _ =>
    let fns := flattenNodes ns
    .mk fns bo (prioritizedIndicesFlat bo fns) uo
end

/-- The flat expression type (flat.rs FlatEx): flat nodes, operators,
the precomputed priority permutation, the declared variable count, and
the optionally retained deep tree.  The outer unary prefix of the
flattened root (spec section 4.7) is kept in a field of its own. -/
structure FlatEx (T : Type) where
  nodes : List (FlatNode T)
  ops : List (BinOp T)
  prio_indices : List Nat
  unary : UnaryOp T
  n_unique_vars : Nat
  deepex : Option (DeepEx T)

/-- Number of variables of a deep expression (deep.rs DeepEx::n_vars). -/
def DeepEx.n_vars (e : DeepEx T) : Nat := e.varNames.length

/-- Flattening of a deep expression (flat.rs flatten; the node and
operator linearization is modelled from the spec since
flat_details.rs is not under src). -/
def flatten (deepex : DeepEx T) : FlatEx T :=
  match flattenSub deepex with
  | .mk fns ops prio uo =>
    ⟨fns, ops, prio, uo, deepex.n_vars, some deepex⟩

mutual
/-- Modelled from the spec: per-node scalar values, literals verbatim,
variables by lookup, sub-expressions by recursive evaluation (spec
section 4.8 step 1, for flat_details.rs eval_flatex). -/
def evalFlatNodes [Inhabited T] : List (FlatNode T) → List T → List T
  | [], _ => []
  | .Num n :: r, vars => n :: evalFlatNodes r vars
  | .Var i :: r, vars => vars.getD i default :: evalFlatNodes r vars
  | .Sub s :: r, vars => evalFlatSub s vars :: evalFlatNodes r vars

/-- Modelled from the spec: evaluation of a compound flat node. -/
def evalFlatSub [Inhabited T] : FlatSub T → List T → T
  | .mk fns ops prio uo, vars =>
    UnaryOp.applyAll uo
      ((evalLoop ops prio (evalFlatNodes fns vars)
        (List.replicate fns.length false)).getD 0 default)
end

/-- Modelled from the spec: flat evaluation (spec section 4.8 and the
binding length precondition of section 6, for
flat_details.rs eval_flatex): reject a binding slice whose length
differs from the declared variable count, then reduce the node values
over the precomputed priority permutation and apply the outer unary
prefix. -/
def eval_flatex [Inhabited T] (vars : List T) (nodes : List (FlatNode T))
    (ops : List (BinOp T)) (prio_indices : List Nat) (unary : UnaryOp T)
    (n_unique_vars : Nat) : Except ExError T :=
  if vars.length ≠ n_unique_vars then
    .error ⟨"binding slice length does not match the number of variables"⟩
  else
    .ok (UnaryOp.applyAll unary
      ((evalLoop ops prio_indices (evalFlatNodes nodes vars)
        (List.replicate nodes.length false)).getD 0 default))

/-- Evaluation of a flat expression (flat.rs FlatEx::eval). -/
def FlatEx.eval [Inhabited T] (self : FlatEx T) (vars : List T) :
    Except ExError T :=
  eval_flatex vars self.nodes self.ops self.prio_indices self.unary
    self.n_unique_vars

/-- Partial differentiation entry point of the flat expression
(flat.rs FlatEx::partial).  The derivative routine on the deep tree
lives in partial_derivatives.rs, which is not under src; it is taken
as the argument pd, so every statement below holds for any routine. -/
def FlatEx.derive (pd : DeepEx T → Nat → Except ExError (DeepEx T))
    (self : FlatEx T) (var_idx : Nat) : Except ExError (FlatEx T) :=
  match self.deepex with
  | none =>
      .error ⟨"need deep expression for derivation, not possible after calling clear"⟩
  | some d => do
      let di ← pd d var_idx
      .ok (flatten di)

/-- Unparsing of a flat expression (flat.rs FlatEx::unparse). -/
def FlatEx.unparse (fmt : T → String) (self : FlatEx T) :
    Except ExError String :=
  match self.deepex with
  | some d => .ok (DeepEx.unparse_raw fmt d)
  | none => .error ⟨"unparse impossible, since deep expression optimized away"⟩

/-- Memory compaction (flat.rs FlatEx::reduce_memory): drop the deep
tree cache. -/
def FlatEx.reduce_memory (self : FlatEx T) : FlatEx T :=
  { self with deepex := none }

mutual
/-- Owned buffer form of a deep node (deep.rs DeepBufNode). -/
inductive DeepBufNode (T : Type) : Type where
  | Expr : DeepBuf T → DeepBufNode T
  | Num : T → DeepBufNode T
  | Var : Nat → String → DeepBufNode T

/-- Owned buffer form of a deep expression (deep.rs DeepBuf),
additionally storing the unparsed text. -/
inductive DeepBuf (T : Type) : Type where
  | mk (nodes : List (DeepBufNode T)) (binReprs : List String)
       (binOps : List (BinOp T)) (unaryReprs : List String)
       (unaryOp : UnaryOp T) (unparsed : String)
       (varNames : List String) : DeepBuf T
end

/-- The stored unparsed text of a deep buffer. -/
def DeepBuf.unparsed : DeepBuf T → String
  | .mk _ _ _ _ _ u _ => u

mutual
/-- Conversion of a deep expression into its owned buffer form
(deep.rs DeepBuf::from_deepex). -/
def DeepBuf.from_deepex (fmt : T → String) : DeepEx T → DeepBuf T
  | .mk ns br bo ur uo vn =>
    .mk (fromDeepexNodes fmt ns) br bo ur uo
      (DeepEx.unparse_raw fmt (.mk ns br bo ur uo vn)) vn

/-- Node-wise conversion into the owned buffer form. -/
def fromDeepexNodes (fmt : T → String) :
    List (DeepNode T) → List (DeepBufNode T)
  | [] => []
  | .Expr e :: r => .Expr (DeepBuf.from_deepex fmt e) :: fromDeepexNodes fmt r
  | .Num n :: r => .Num n :: fromDeepexNodes fmt r
  | .Var i s :: r => .Var i s :: fromDeepexNodes fmt r
end

mutual
/-- Conversion of the owned buffer form back into a deep expression
(deep.rs DeepBuf::to_deepex); the variable names are overwritten with
the stored ones afterwards. -/
def DeepBuf.to_deepex : DeepBuf T → Except ExError (DeepEx T)
  | .mk ns br bo ur uo _ vn =>
    match toDeepexNodes ns with
    | .error e => .error e
    | .ok dns =>
      match DeepEx.new dns ⟨br, bo⟩ ⟨ur, uo⟩ with
      | .error e => .error e
      | .ok (.mk ns2 br2 bo2 ur2 uo2 _) => .ok (.mk ns2 br2 bo2 ur2 uo2 vn)

/-- Node-wise conversion back to deep nodes. -/
def toDeepexNodes : List (DeepBufNode T) → Except ExError (List (DeepNode T))
  | [] => .ok []
  | .Expr b :: r =>
    match DeepBuf.to_deepex b, toDeepexNodes r with
    | .ok e, .ok rest => .ok (.Expr e :: rest)
    | .error e, _ => .error e
    | _, .error e => .error e
  | .Num n :: r =>
    match toDeepexNodes r with
    | .ok rest => .ok (.Num n :: rest)
    | .error e => .error e
  | .Var i s :: r =>
    match toDeepexNodes r with
    | .ok rest => .ok (.Var i s :: rest)
    | .error e => .error e
end

/-- The owned flat expression (flat.rs OwnedFlatEx): the same parallel
arrays as FlatEx, with the deep cache kept as an owned buffer. -/
structure OwnedFlatEx (T : Type) where
  deepex_buf : Option (DeepBuf T)
  nodes : List (FlatNode T)
  ops : List (BinOp T)
  prio_indices : List Nat
  unary : UnaryOp T
  n_unique_vars : Nat

/-- Conversion from the borrowed to the owned representation
(flat.rs OwnedFlatEx::from_flatex). -/
def OwnedFlatEx.from_flatex (fmt : T → String) (flatex : FlatEx T) :
    OwnedFlatEx T :=
  ⟨flatex.deepex.map (DeepBuf.from_deepex fmt), flatex.nodes, flatex.ops,
   flatex.prio_indices, flatex.unary, flatex.n_unique_vars⟩

/-- Evaluation of an owned flat expression (flat.rs OwnedFlatEx::eval),
through the same flat evaluation as FlatEx::eval. -/
def OwnedFlatEx.eval [Inhabited T] (self : OwnedFlatEx T) (vars : List T) :
    Except ExError T :=
  eval_flatex vars self.nodes self.ops self.prio_indices self.unary
    self.n_unique_vars

/-- Partial differentiation entry point of the owned flat expression
(flat.rs OwnedFlatEx::partial), with the derivative routine on the
deep tree taken as the argument pd. -/
def OwnedFlatEx.derive (pd : DeepEx T → Nat → Except ExError (DeepEx T))
    (fmt : T → String) (self : OwnedFlatEx T) (var_idx : Nat) :
    Except ExError (OwnedFlatEx T) :=
  match self.deepex_buf with
  | none =>
      .error ⟨"need deep expression for derivation, not possible after calling clear"⟩
  | some db => do
      let deepex ← db.to_deepex
      let di ← pd deepex var_idx
      .ok (OwnedFlatEx.from_flatex fmt (flatten di))

/-- Unparsing of an owned flat expression
(flat.rs OwnedFlatEx::unparse): the stored unparsed text. -/
def OwnedFlatEx.unparse (self : OwnedFlatEx T) : Except ExError String :=
  match self.deepex_buf with
  | some db => .ok db.unparsed
  | none => .error ⟨"unparse impossible, since deep expression optimized away"⟩

/-- Memory compaction of the owned flat expression
(flat.rs OwnedFlatEx::reduce_memory). -/
def OwnedFlatEx.reduce_memory (self : OwnedFlatEx T) : OwnedFlatEx T :=
  { self with deepex_buf := none }

/-- Declared variable count of a flat expression (n_vars in lib.rs). -/
def FlatEx.n_vars (self : FlatEx T) : Nat := self.n_unique_vars

/-- The top level helper (lib.rs eval_str, lines 373 to 384): reject a
parsed expression that contains variables without evaluating it,
otherwise evaluate with the empty binding slice.  The parse step
(FlatEx::from_str_wo_compile, whose body is not under src) is
abstracted as the already computed parse outcome. -/
def eval_str [Inhabited T] (parsed : Except ExError (FlatEx T)) :
    Except ExError T := do
  let flatex ← parsed
  if flatex.n_vars > 0 then
    .error ⟨"input string contains variables"⟩
  else
    flatex.eval []

/-! ## Theorems -/

/-- Claim C7: constructing a deep expression from a node list and a
binary operator list succeeds exactly when the number of nodes equals
the number of binary operators plus one; in every other case an error
and no expression is produced. -/
theorem new_ok_iff_node_count (T : Type) (nodes : List (DeepNode T))
    (bin_ops : BinOpsWithReprs T) (unary_op : UnaryOpWithReprs T) :
    (∃ e, DeepEx.new nodes bin_ops unary_op = .ok e) ↔
      nodes.length = bin_ops.ops.length + 1 := by
  unfold DeepEx.new
  by_cases h : nodes.length = bin_ops.ops.length + 1
  · simp [h]
  · simp [h]

/-- Witness for claim C7 at a concrete input: one literal node and no
binary operator construct successfully, two literal nodes and no
binary operator do not. -/
theorem new_ok_iff_node_count_witness :
    (∃ e, DeepEx.new [DeepNode.Num (3 : Int)] BinOpsWithReprs.new
      UnaryOpWithReprs.new = .ok e)
    ∧ ¬ ∃ e, DeepEx.new [DeepNode.Num (3 : Int), DeepNode.Num 4]
      BinOpsWithReprs.new UnaryOpWithReprs.new = .ok e := by
  constructor
  · exact (new_ok_iff_node_count Int _ _ _).mpr rfl
  · intro h
    have := (new_ok_iff_node_count Int _ _ _).mp h
    simp [BinOpsWithReprs.new] at this

/-- Claim C10: the top level helper eval_str rejects every successfully
parsed expression that contains at least one variable with an error,
without evaluating it, and evaluates with the empty binding slice
otherwise; a parse error is passed through. -/
theorem eval_str_spec (T : Type) [Inhabited T] (fe : FlatEx T) :
    (0 < fe.n_vars →
      eval_str (.ok fe) = .error ⟨"input string contains variables"⟩)
    ∧ (fe.n_vars = 0 → eval_str (.ok fe) = fe.eval [])
    ∧ (∀ err : ExError, eval_str (T := T) (.error err) = .error err) := by
  have hrfl : eval_str (.ok fe) =
      if 0 < fe.n_vars then .error ⟨"input string contains variables"⟩
      else fe.eval [] := rfl
  refine ⟨fun h => ?_, fun h => ?_, fun err => rfl⟩
  · rw [hrfl, if_pos h]
  · rw [hrfl, if_neg (by omega)]

/-- Witness for claim C10: a one-variable expression is rejected even
though its evaluation with the empty slice would also fail, and a
variable-free expression is evaluated. -/
theorem eval_str_spec_witness :
    eval_str (.ok (⟨[FlatNode.Var 0], [], [], [], 1, none⟩ : FlatEx Int))
      = .error ⟨"input string contains variables"⟩
    ∧ eval_str (.ok (⟨[FlatNode.Num (7 : Int)], [], [], [], 0, none⟩ : FlatEx Int))
      = .ok 7 := by
  constructor
  · exact (eval_str_spec Int _).1 (by decide)
  · have h := (eval_str_spec Int
      (⟨[FlatNode.Num (7 : Int)], [], [], [], 0, none⟩ : FlatEx Int)).2.1 rfl
    rw [h]
    rfl

/-- Claim C9: converting a flat expression into its owned form
preserves evaluation exactly: on every binding slice the owned
expression returns the same value or the same error. -/
theorem from_flatex_eval_eq (T : Type) [Inhabited T] (fmt : T → String)
    (fe : FlatEx T) (vars : List T) :
    (OwnedFlatEx.from_flatex fmt fe).eval vars = fe.eval vars := rfl

/-- Claim C5: after memory compaction, evaluation still succeeds with
the identical value, while differentiation (for any derivative routine
on the deep tree) and unparsing return errors; this holds for the
borrowed and for the owned flat expression. -/
theorem reduce_memory_spec (T : Type) [Inhabited T] :
    (∀ (fe : FlatEx T) (vars : List T) (r : T), fe.eval vars = .ok r →
      fe.reduce_memory.eval vars = .ok r
      ∧ (∀ pd i, ∃ err, FlatEx.derive pd fe.reduce_memory i = .error err)
      ∧ (∀ fmt, ∃ err, FlatEx.unparse fmt fe.reduce_memory = .error err))
    ∧ (∀ (ofe : OwnedFlatEx T) (vars : List T) (r : T), ofe.eval vars = .ok r →
      ofe.reduce_memory.eval vars = .ok r
      ∧ (∀ pd fmt i, ∃ err, OwnedFlatEx.derive pd fmt ofe.reduce_memory i = .error err)
      ∧ (∃ err, OwnedFlatEx.unparse ofe.reduce_memory = .error err)) := by
  constructor
  · intro fe vars r h
    exact ⟨h, fun pd i => ⟨_, rfl⟩, fun fmt => ⟨_, rfl⟩⟩
  · intro ofe vars r h
    exact ⟨h, fun pd fmt i => ⟨_, rfl⟩, ⟨_, rfl⟩⟩

/-- Witness for claim C5 at a concrete compacted expression. -/
theorem reduce_memory_spec_witness :
    ((⟨[FlatNode.Num (6 : Int)], [], [], [], 0,
        some (.mk [DeepNode.Num 6] [] [] [] [] [])⟩ : FlatEx Int).reduce_memory.eval []
      = .ok 6)
    ∧ ∃ err, FlatEx.unparse (fun n => toString n)
        ((⟨[FlatNode.Num (6 : Int)], [], [], [], 0,
          some (.mk [DeepNode.Num 6] [] [] [] [] [])⟩ : FlatEx Int).reduce_memory)
        = .error err := by
  have h := (reduce_memory_spec Int).1
    (⟨[FlatNode.Num (6 : Int)], [], [], [], 0,
      some (.mk [DeepNode.Num 6] [] [] [] [] [])⟩ : FlatEx Int) [] 6 rfl
  exact ⟨h.1, h.2.2 (fun n => toString n)⟩

/-- The three node expression used for the priority claims:
a op1 b op2 c with both operands literal. -/
lemma evalDeep_three_left [Inhabited T] (o1 o2 : BinOp T) (a b c : T)
    (rs vs : List String)
    (h : prioIncrease [o1, o2] [DeepNode.Num a, DeepNode.Num b, DeepNode.Num c] 1 ≤
         prioIncrease [o1, o2] [DeepNode.Num a, DeepNode.Num b, DeepNode.Num c] 0) :
    DeepEx.evalDeep (.mk [.Num a, .Num b, .Num c] rs [o1, o2] [] [] vs) [] =
      o2.apply (o1.apply a b) c := by
  have hsort : prioritizedIndices [o1, o2]
      [DeepNode.Num a, DeepNode.Num b, DeepNode.Num c] = [0, 1] := by
    simp [prioritizedIndices, List.insertionSort, List.orderedInsert, List.range_succ, h]
  simp [DeepEx.evalDeep, evalNodes, hsort, evalLoop, shiftLeftIdx, shiftRightIdx,
    UnaryOp.applyAll, List.replicate]

/-- The mirror case: the second operator has the strictly larger
effective priority and is reduced first. -/
lemma evalDeep_three_right [Inhabited T] (o1 o2 : BinOp T) (a b c : T)
    (rs vs : List String)
    (h : ¬ prioIncrease [o1, o2] [DeepNode.Num a, DeepNode.Num b, DeepNode.Num c] 1 ≤
         prioIncrease [o1, o2] [DeepNode.Num a, DeepNode.Num b, DeepNode.Num c] 0) :
    DeepEx.evalDeep (.mk [.Num a, .Num b, .Num c] rs [o1, o2] [] [] vs) [] =
      o1.apply a (o2.apply b c) := by
  have hsort : prioritizedIndices [o1, o2]
      [DeepNode.Num a, DeepNode.Num b, DeepNode.Num c] = [1, 0] := by
    simp [prioritizedIndices, List.insertionSort, List.orderedInsert, List.range_succ, h]
  simp [DeepEx.evalDeep, evalNodes, hsort, evalLoop, shiftLeftIdx, shiftRightIdx,
    UnaryOp.applyAll, List.replicate]

/-- Effective priorities of the two positions of a three literal
expression. -/
lemma prioIncrease_three (o1 o2 : BinOp T) (a b c : T) :
    prioIncrease [o1, o2] [DeepNode.Num a, DeepNode.Num b, DeepNode.Num c] 0 =
      (if o1.is_commutative then o1.prio * 10 + 5 else o1.prio * 10)
    ∧ prioIncrease [o1, o2] [DeepNode.Num a, DeepNode.Num b, DeepNode.Num c] 1 =
      (if o2.is_commutative then o2.prio * 10 + 5 else o2.prio * 10) := by
  constructor <;> rfl

/-- Counterexample to claim C3 as stated: with equal raw priorities,
the literal expression 1 - 2 * 3 where subtraction is not commutative
and multiplication is commutative evaluates to 1 - (2 * 3) = -5, not
to the left to right result (1 - 2) * 3 = -3, because the
commutativity bonus raises the effective priority of the
multiplication position over both literal neighbors. -/
theorem priority_tie_counterexample :
    DeepEx.evalDeep (.mk [.Num (1 : Int), .Num 2, .Num 3] ["-", "*"]
      [⟨fun a b => a - b, 1, false⟩, ⟨fun a b => a * b, 1, true⟩] [] [] []) []
      = -5
    ∧ ((1 - 2) * 3 : Int) = -3 ∧ ((-5 : Int) = -3 → False) :=
  ⟨by rfl, by decide, by decide⟩

/-- Claim C3 (amended): evaluation of the literal expression
a op1 b op2 c groups as (a op1 b) op2 c when op1 has the strictly
larger priority, as a op1 (b op2 c) when op2 has the strictly larger
priority, and on equal priorities it groups left to right unless the
commutativity bonus applies asymmetrically, that is unless op1 is not
commutative while op2 is, in which case op2 is reduced first. -/
theorem priority_respect (T : Type) [Inhabited T] (f1 f2 : T → T → T)
    (p1 p2 : Int) (c1 c2 : Bool) (a b c : T) (rs vs : List String) :
    (p2 < p1 →
      DeepEx.evalDeep (.mk [.Num a, .Num b, .Num c] rs
        [⟨f1, p1, c1⟩, ⟨f2, p2, c2⟩] [] [] vs) [] = f2 (f1 a b) c)
    ∧ (p1 < p2 →
      DeepEx.evalDeep (.mk [.Num a, .Num b, .Num c] rs
        [⟨f1, p1, c1⟩, ⟨f2, p2, c2⟩] [] [] vs) [] = f1 a (f2 b c))
    ∧ (p1 = p2 → (c1 = true ∨ c2 = false) →
      DeepEx.evalDeep (.mk [.Num a, .Num b, .Num c] rs
        [⟨f1, p1, c1⟩, ⟨f2, p2, c2⟩] [] [] vs) [] = f2 (f1 a b) c)
    ∧ (p1 = p2 → c1 = false → c2 = true →
      DeepEx.evalDeep (.mk [.Num a, .Num b, .Num c] rs
        [⟨f1, p1, c1⟩, ⟨f2, p2, c2⟩] [] [] vs) [] = f1 a (f2 b c)) := by
  obtain ⟨h0, h1⟩ := prioIncrease_three (⟨f1, p1, c1⟩ : BinOp T) ⟨f2, p2, c2⟩ a b c
  refine ⟨fun h => ?_, fun h => ?_, fun h hc => ?_, fun h hc1 hc2 => ?_⟩
  · refine evalDeep_three_left _ _ _ _ _ _ _ ?_
    rw [h0, h1]
    dsimp only
    split <;> split <;> omega
  · refine evalDeep_three_right _ _ _ _ _ _ _ ?_
    rw [h0, h1]
    dsimp only
    split <;> split <;> omega
  · refine evalDeep_three_left _ _ _ _ _ _ _ ?_
    rw [h0, h1]
    dsimp only
    rcases hc with hc | hc <;> simp [hc] <;> split <;> omega
  · refine evalDeep_three_right _ _ _ _ _ _ _ ?_
    rw [h0, h1]
    dsimp only
    simp [hc1, hc2]
    omega

/-- Witness for claim C3 (amended) at concrete inputs: 5 * 2 + 3 with
the usual priorities evaluates to 13, and 5 + 2 * 3 evaluates to 11. -/
theorem priority_respect_witness :
    DeepEx.evalDeep (.mk [.Num (5 : Int), .Num 2, .Num 3] ["*", "+"]
      [⟨fun a b => a * b, 2, true⟩, ⟨fun a b => a + b, 1, true⟩] [] [] []) [] = 13
    ∧ DeepEx.evalDeep (.mk [.Num (5 : Int), .Num 2, .Num 3] ["+", "*"]
      [⟨fun a b => a + b, 1, true⟩, ⟨fun a b => a * b, 2, true⟩] [] [] []) [] = 11 := by
  constructor
  · have h := (priority_respect Int (fun a b => a * b) (fun a b => a + b)
      2 1 true true 5 2 3 ["*", "+"] []).1 (by decide)
    rw [h]
    decide
  · have h := (priority_respect Int (fun a b => a + b) (fun a b => a * b)
      1 2 true true 5 2 3 ["+", "*"] []).2.1 (by decide)
    rw [h]
    decide

/-- Key step for the stability statement: inserting an element that
precedes (in input position) everything already in the sorted list
keeps the list ordered lexicographically by decreasing key, then by
input position. -/
lemma orderedInsert_pairwise_lex (key : Nat → Int) (x : Nat) (s : List Nat)
    (hs : s.Pairwise (fun i j => key j < key i ∨ (key i = key j ∧ i < j)))
    (hx : ∀ y ∈ s, x < y) :
    (List.orderedInsert (fun i j => key j ≤ key i) x s).Pairwise
      (fun i j => key j < key i ∨ (key i = key j ∧ i < j)) := by
  induction s with
  | nil => simp
  | cons y ys ih =>
    by_cases h : key y ≤ key x
    · simp only [List.orderedInsert, if_pos h]
      refine List.Pairwise.cons ?_ hs
      intro z hz
      have hzx : key z ≤ key x := by
        rcases List.mem_cons.mp hz with hz1 | hz1
        · subst hz1; exact h
        · rcases List.rel_of_pairwise_cons hs hz1 with h2 | h2 <;> omega
      rcases lt_or_eq_of_le hzx with h2 | h2
      · exact Or.inl h2
      · exact Or.inr ⟨h2.symm, hx z hz⟩
    · simp only [List.orderedInsert, if_neg h]
      refine List.Pairwise.cons ?_
        (ih hs.of_cons (fun z hz => hx z (List.mem_cons_of_mem _ hz)))
      intro z hz
      rcases (List.mem_orderedInsert _).mp hz with hz1 | hz1
      · subst hz1; exact Or.inl (by omega)
      · exact List.rel_of_pairwise_cons hs hz1

/-- The stable descending insertion sort of a strictly increasing
input list is ordered lexicographically by decreasing key, then by
input position. -/
lemma insertionSort_pairwise_lex (key : Nat → Int) (l : List Nat)
    (hl : l.Pairwise (fun i j => i < j)) :
    (List.insertionSort (fun i j => key j ≤ key i) l).Pairwise
      (fun i j => key j < key i ∨ (key i = key j ∧ i < j)) := by
  induction l with
  | nil => simp
  | cons x xs ih =>
    rw [List.insertionSort]
    refine orderedInsert_pairwise_lex key x _ (ih hl.of_cons) ?_
    intro y hy
    have hmem : y ∈ xs := (List.perm_insertionSort _ xs).mem_iff.mp hy
    exact List.rel_of_pairwise_cons hl hmem

/-- Claim C4: the priority permutation is a permutation of the binary
operator positions ordered by decreasing effective priority, positions
of equal effective priority keeping their input order, where the
effective priority is the raw priority times 10 plus 5 exactly when
both neighboring nodes are literals and the operator is commutative. -/
theorem prioritized_indices_spec (T : Type) (binOps : List (BinOp T))
    (nodes : List (DeepNode T)) :
    (prioritizedIndices binOps nodes).Perm (List.range binOps.length)
    ∧ (prioritizedIndices binOps nodes).Pairwise (fun i j =>
        prioIncrease binOps nodes j < prioIncrease binOps nodes i
        ∨ (prioIncrease binOps nodes i = prioIncrease binOps nodes j ∧ i < j))
    ∧ (∀ k op, binOps.get? k = some op →
        (((∃ x, nodes.get? k = some (.Num x))
            ∧ (∃ y, nodes.get? (k + 1) = some (.Num y))
            ∧ op.is_commutative = true) →
          prioIncrease binOps nodes k = op.prio * 10 + 5)
        ∧ (¬ ((∃ x, nodes.get? k = some (.Num x))
            ∧ (∃ y, nodes.get? (k + 1) = some (.Num y))
            ∧ op.is_commutative = true) →
          prioIncrease binOps nodes k = op.prio * 10)) := by
  refine ⟨List.perm_insertionSort _ _,
    insertionSort_pairwise_lex _ _ (List.pairwise_lt_range _), ?_⟩
  intro k op hk
  constructor
  · rintro ⟨⟨x, hx⟩, ⟨y, hy⟩, hc⟩
    unfold prioIncrease
    rw [hk, hx, hy]
    simp [hc]
  · intro hno
    unfold prioIncrease
    rw [hk]
    rcases h1 : nodes.get? k with _ | n1
    · rfl
    rcases h2 : nodes.get? (k + 1) with _ | n2
    · cases n1 <;> rfl
    cases n1 <;> cases n2 <;> try rfl
    case Num.Num a b =>
      by_cases hc : op.is_commutative
      · exact absurd ⟨⟨_, h1⟩, ⟨_, h2⟩, hc⟩ hno
      · simp [hc]


/-- Witness for claim C4: a commutative operator between two literals
receives the half step bonus. -/
theorem prioritized_indices_spec_witness :
    prioIncrease [(⟨fun a b => a * b, 2, true⟩ : BinOp Int)]
      [DeepNode.Num (1 : Int), DeepNode.Num 2] 0 = 25 := by
  have h := ((prioritized_indices_spec Int
      [(⟨fun a b => a * b, 2, true⟩ : BinOp Int)]
      [DeepNode.Num (1 : Int), DeepNode.Num 2]).2.2 0 _ rfl).1
    ⟨⟨1, rfl⟩, ⟨2, rfl⟩, rfl⟩
  rw [h]
  rfl



mutual
/-- Whether an expression is fully lifted: it is not itself a
single-child wrapper with empty unary prefix around a nested
expression, and no transitive child is. -/
def liftedEx : DeepEx T → Bool
  | .mk ns _ _ _ uo _ =>
    (match ns, uo with
     | [DeepNode.Expr _], [] => false
     | _, _ => true) && liftedNodes ns

/-- The lifted property over a node list. -/
def liftedNodes : List (DeepNode T) → Bool
  | [] => true
  | .Expr e :: r => liftedEx e && liftedNodes r
  | .Num _ :: r => liftedNodes r
  | .Var _ _ :: r => liftedNodes r
end

/-- The lifted property of one node. -/
def liftedNode : DeepNode T → Bool
  | .Expr e => liftedEx e
  | _ => true

/-- The node list form of the lifted property is elementwise. -/
lemma liftedNodes_iff (l : List (DeepNode T)) :
    liftedNodes l = true ↔ ∀ n ∈ l, liftedNode n = true := by
  induction l with
  | nil => simp [liftedNodes]
  | cons n r ih =>
    cases n <;> simp [liftedNodes, liftedNode, ih]

/-- The lifting loop keeps the number of children. -/
lemma liftChildren_length (l : List (DeepNode T)) :
    (liftChildren l).length = l.length := by
  induction l with
  | nil => rfl
  | cons n r ih => simp [liftChildren, ih]

/-- The folding loop preserves every node predicate that holds of all
literals: folds only write literals and remove nodes. -/
lemma foldLoopFuel_pred (bo : List (BinOp T)) (P : DeepNode T → Prop)
    (hnum : ∀ x, P (.Num x)) :
    ∀ fuel pairs nodes declined used, (∀ n ∈ nodes, P n) →
      ∀ n ∈ (foldLoopFuel bo fuel pairs nodes declined used).1, P n := by
  intro fuel pairs nodes declined used
  refine foldLoopFuel.induct bo
    (motive := fun fuel pairs nodes declined used =>
      (∀ n ∈ nodes, P n) →
      ∀ n ∈ (foldLoopFuel bo fuel pairs nodes declined used).1, P n)
    ?_ ?_ ?_ ?_ ?_ ?_ fuel pairs nodes declined used
  · intro t ns d u h
    simpa [foldLoopFuel] using h
  · intro hd tl ns d u h
    simpa [foldLoopFuel] using h
  · intro f bi ni rest ns d u a a1 h2 h1 hdec ih h
    rw [foldLoopFuel, h1, h2]
    simp only [if_pos hdec]
    exact ih h
  · intro f bi ni rest ns d u a a1 h2 h1 hdec op hop ih h
    rw [foldLoopFuel, h1, h2]
    simp only [if_neg hdec, hop]
    refine ih ?_
    intro n hn
    have hn2 := List.Sublist.mem hn (List.eraseIdx_sublist _ _)
    rcases List.mem_or_eq_of_mem_set hn2 with hn3 | hn3
    · exact h n hn3
    · subst hn3; exact hnum _
  · intro f bi ni rest ns d u a a1 h2 h1 hdec hnone ih h
    rw [foldLoopFuel, h1, h2]
    simp only [if_neg hdec, hnone]
    exact ih h
  · intro f bi ni rest ns d u hnn ih h
    rw [foldLoopFuel]
    rcases hg1 : ns.get? ni with _ | n1
    · exact ih h
    rcases hg2 : ns.get? (ni + 1) with _ | n2
    · cases n1 <;> exact ih h
    · cases n1 <;> cases n2 <;> first
        | exact ih h
        | exact absurd (hnn _ _ hg1 hg2) (by simp)

/-- Once the node list contains a literal, it still does after the
folding loop. -/
lemma foldLoopFuel_exists_num (bo : List (BinOp T)) :
    ∀ fuel pairs nodes declined used,
      (∃ i x, nodes.get? i = some (.Num x)) →
      ∃ i x, (foldLoopFuel bo fuel pairs nodes declined used).1.get? i
        = some (.Num x) := by
  intro fuel pairs nodes declined used
  refine foldLoopFuel.induct bo
    (motive := fun fuel pairs nodes declined used =>
      (∃ i x, nodes.get? i = some (.Num x)) →
      ∃ i x, (foldLoopFuel bo fuel pairs nodes declined used).1.get? i
        = some (.Num x))
    ?_ ?_ ?_ ?_ ?_ ?_ fuel pairs nodes declined used
  · intro t ns d u h
    simpa [foldLoopFuel] using h
  · intro hd tl ns d u h
    simpa [foldLoopFuel] using h
  · intro f bi ni rest ns d u a a1 h2 h1 hdec ih h
    rw [foldLoopFuel, h1, h2]
    simp only [if_pos hdec]
    exact ih h
  · intro f bi ni rest ns d u a a1 h2 h1 hdec op hop ih h
    rw [foldLoopFuel, h1, h2]
    simp only [if_neg hdec, hop]
    refine ih ⟨ni, op.apply a a1, ?_⟩
    have hlen : ni < ns.length := (List.get?_eq_some.mp h1).1
    rw [List.get?_eq_getElem?]
    rw [List.getElem?_eraseIdx_of_lt _ _ _ (by omega)]
    simp [List.getElem?_set, hlen]
  · intro f bi ni rest ns d u a a1 h2 h1 hdec hnone ih h
    rw [foldLoopFuel, h1, h2]
    simp only [if_neg hdec, hnone]
    exact ih h
  · intro f bi ni rest ns d u hnn ih h
    rw [foldLoopFuel]
    rcases hg1 : ns.get? ni with _ | n1
    · exact ih h
    rcases hg2 : ns.get? (ni + 1) with _ | n2
    · cases n1 <;> exact ih h
    · cases n1 <;> cases n2 <;> first
        | exact ih h
        | exact absurd (hnn _ _ hg1 hg2) (by simp)

/-- The folding loop either leaves the node list unchanged or leaves a
literal in it. -/
lemma foldLoopFuel_unchanged_or_num (bo : List (BinOp T)) :
    ∀ fuel pairs nodes declined used,
      (foldLoopFuel bo fuel pairs nodes declined used).1 = nodes
      ∨ ∃ i x, (foldLoopFuel bo fuel pairs nodes declined used).1.get? i
          = some (.Num x) := by
  intro fuel pairs nodes declined used
  refine foldLoopFuel.induct bo
    (motive := fun fuel pairs nodes declined used =>
      (foldLoopFuel bo fuel pairs nodes declined used).1 = nodes
      ∨ ∃ i x, (foldLoopFuel bo fuel pairs nodes declined used).1.get? i
          = some (.Num x))
    ?_ ?_ ?_ ?_ ?_ ?_ fuel pairs nodes declined used
  · intro t ns d u
    simp [foldLoopFuel]
  · intro hd tl ns d u
    simp [foldLoopFuel]
  · intro f bi ni rest ns d u a a1 h2 h1 hdec ih
    rw [foldLoopFuel, h1, h2]
    simp only [if_pos hdec]
    exact ih
  · intro f bi ni rest ns d u a a1 h2 h1 hdec op hop ih
    rw [foldLoopFuel, h1, h2]
    simp only [if_neg hdec, hop]
    right
    refine foldLoopFuel_exists_num bo _ _ _ _ _ ⟨ni, op.apply a a1, ?_⟩
    have hlen : ni < ns.length := (List.get?_eq_some.mp h1).1
    rw [List.get?_eq_getElem?]
    rw [List.getElem?_eraseIdx_of_lt _ _ _ (by omega)]
    simp [List.getElem?_set, hlen]
  · intro f bi ni rest ns d u a a1 h2 h1 hdec hnone ih
    rw [foldLoopFuel, h1, h2]
    simp only [if_neg hdec, hnone]
    exact ih
  · intro f bi ni rest ns d u hnn ih
    rw [foldLoopFuel]
    rcases hg1 : ns.get? ni with _ | n1
    · exact ih
    rcases hg2 : ns.get? (ni + 1) with _ | n2
    · cases n1 <;> exact ih
    · cases n1 <;> cases n2 <;> first
        | exact ih
        | exact absurd (hnn _ _ hg1 hg2) (by simp)



/-- The loop body of lift_nodes preserves the lifted property; under
the invariant the hoisting branch for a doubly nested expression is
unreachable. -/
lemma liftChild_lifted (n : DeepNode T) (h : liftedNode n = true) :
    liftedNode (liftChild n) = true := by
  cases n with
  | Num x => exact h
  | Var i s => exact h
  | Expr e =>
    rcases e with ⟨ns, br, bo, ur, uo, vn⟩
    rcases ns with _ | ⟨n0, ns1⟩
    · exact h
    rcases ns1 with _ | ⟨n1, ns2⟩
    · rcases uo with _ | ⟨f, fs⟩
      · rcases n0 with x | ⟨i, s⟩ | eDeeper
        · simp [liftChild, liftedNode]
        · simp [liftChild, liftedNode]
        · exfalso
          simp [liftedNode, liftedEx] at h
      · exact h
    · exact h

/-- The lifting loop preserves the lifted property of all children. -/
lemma liftChildren_lifted (l : List (DeepNode T))
    (h : liftedNodes l = true) : liftedNodes (liftChildren l) = true := by
  rw [liftedNodes_iff] at h ⊢
  induction l with
  | nil => simp [liftChildren]
  | cons n r ih =>
    intro m hm
    rw [liftChildren] at hm
    rcases List.mem_cons.mp hm with hm1 | hm1
    · subst hm1
      exact liftChild_lifted n (h n (List.mem_cons_self _ _))
    · exact ih (fun x hx => h x (List.mem_cons_of_mem _ hx)) m hm1

/-- Lifting an expression whose children are lifted yields a fully
lifted expression. -/
lemma liftNodes_lifted (ns : List (DeepNode T)) (br : List String)
    (bo : List (BinOp T)) (ur : List String) (uo : UnaryOp T)
    (vn : List String) (h : liftedNodes ns = true) :
    liftedEx (liftNodes (.mk ns br bo ur uo vn)) = true := by
  rcases hns : ns with _ | ⟨n0, ns1⟩
  · subst hns
    rcases uo with _ | ⟨f, fs⟩ <;> simp [liftNodes, liftedEx, liftChildren, liftedNodes]
  subst hns
  rcases ns1 with _ | ⟨n1, ns2⟩
  · -- one node
    rcases uo with _ | ⟨f, fs⟩
    · rcases n0 with x | ⟨i, s⟩ | inner
      · simpa [liftNodes, liftedEx] using h
      · simpa [liftNodes, liftedEx] using h
      · -- top branch: replaced by inner
        show liftedEx inner = true
        simp [liftedNodes] at h
        exact h
    · -- unary nonempty: children loop on a single node
      have : liftNodes (.mk [n0] br bo ur (f :: fs) vn)
          = .mk (liftChildren [n0]) br bo ur (f :: fs) vn := by
        cases n0 <;> rfl
      rw [this]
      have hch := liftChildren_lifted [n0] h
      simp [liftedEx]
      exact hch
  · -- at least two nodes: children loop
    have hlen : (n0 :: n1 :: ns2).length = 1 ∧ (uo.isEmpty = true) ↔ False := by
      simp
    have : liftNodes (.mk (n0 :: n1 :: ns2) br bo ur uo vn)
        = .mk (liftChildren (n0 :: n1 :: ns2)) br bo ur uo vn := by
      rcases uo with _ | ⟨f, fs⟩
      · cases n0 <;> simp [liftNodes, List.isEmpty]
      · cases n0 <;> simp [liftNodes, List.isEmpty]
    rw [this]
    have hch := liftChildren_lifted _ h
    simp [liftedEx]
    refine ⟨?_, hch⟩
    cases hc : liftChildren (n0 :: n1 :: ns2) with
    | nil => simp
    | cons m r =>
      cases r with
      | cons m2 r2 => cases m <;> simp
      | nil =>
        exfalso
        have := liftChildren_length (n0 :: n1 :: ns2)
        rw [hc] at this
        simp at this
    


/-- Compilation of an expression with lifted children yields a fully
lifted expression: folding only merges literals and cannot create a
wrapper. -/
lemma compile_lifted (ns : List (DeepNode T)) (br : List String)
    (bo : List (BinOp T)) (ur : List String) (uo : UnaryOp T)
    (vn : List String) (h : liftedNodes ns = true) :
    liftedEx (DeepEx.compile (.mk ns br bo ur uo vn)) = true := by
  have hl := liftNodes_lifted ns br bo ur uo vn h
  unfold DeepEx.compile
  rcases hlift : liftNodes (.mk ns br bo ur uo vn) with ⟨ns2, br2, bo2, ur2, uo2, vn2⟩
  rw [hlift] at hl
  simp only [liftedEx, Bool.and_eq_true] at hl
  obtain ⟨hl1, hl2⟩ := hl
  dsimp only
  have hmem : ∀ n ∈ (foldLoop bo2
      ((prioritizedIndices bo2 ns2).zip (prioritizedIndices bo2 ns2)) ns2
      (List.replicate ns2.length false) []).1, liftedNode n = true := by
    unfold foldLoop
    exact foldLoopFuel_pred bo2 (fun n => liftedNode n = true) (fun x => rfl)
      _ _ _ _ _ ((liftedNodes_iff _).mp hl2)
  have hunch := foldLoopFuel_unchanged_or_num bo2
    ((prioritizedIndices bo2 ns2).zip (prioritizedIndices bo2 ns2)).length
    ((prioritizedIndices bo2 ns2).zip (prioritizedIndices bo2 ns2)) ns2
    (List.replicate ns2.length false) []
  rcases hnodes : (foldLoop bo2
      ((prioritizedIndices bo2 ns2).zip (prioritizedIndices bo2 ns2)) ns2
      (List.replicate ns2.length false) []).1 with _ | ⟨m0, ms⟩
  · simp [liftedEx, liftedNodes]
  rcases ms with _ | ⟨m1, ms2⟩
  · -- single remaining node
    rcases m0 with x | ⟨i, s⟩ | f
    · simp [liftedEx, liftedNodes]
    · simp [liftedEx, liftedNodes]
    · -- single Expr: fold loop could not have folded
      rw [foldLoop] at hnodes
      rcases hunch with hunch | ⟨i, x, hx⟩
      · -- result equals the lifted nodes
        rw [hnodes] at hunch
        subst hunch
        rcases uo2 with _ | ⟨g, gs⟩
        · simp at hl1
        · have hmem2 := hmem
          rw [foldLoop, hnodes] at hmem2
          simp [liftedEx, liftedNodes]
          have := hmem2 (DeepNode.Expr f) (by simp)
          simpa [liftedNode] using this
      · rw [hnodes] at hx
        rcases i with _ | i
        · simp at hx
        · simp at hx
  · -- two or more remaining nodes
    have hmem2 := hmem
    rw [hnodes] at hmem2
    have hlift2 : liftedNodes (m0 :: m1 :: ms2) = true := by
      rw [liftedNodes_iff]
      exact hmem2
    cases m0 <;> cases m1 <;> simp [liftedEx, hlift2]



/-- Claim C8: lifting replaces an expression having exactly one child
that is a nested expression by that child exactly when the enclosing
expression has no unary prefix (with a nonempty prefix only the loop
body rewrites the child); and after simplification of an expression
whose nested children are themselves simplified, no node is a single
child wrapper with empty unary prefix around a nested expression. -/
theorem lifting_spec (T : Type) :
    (∀ (inner : DeepEx T) (br : List String) (bo : List (BinOp T))
        (ur vn : List String),
        liftNodes (.mk [.Expr inner] br bo ur [] vn) = inner)
    ∧ (∀ (inner : DeepEx T) (br : List String) (bo : List (BinOp T))
        (ur : List String) (uo : UnaryOp T) (vn : List String), uo ≠ [] →
        liftNodes (.mk [.Expr inner] br bo ur uo vn) =
          .mk [liftChild (.Expr inner)] br bo ur uo vn)
    ∧ (∀ (nodes : List (DeepNode T)) (bops : BinOpsWithReprs T)
        (uops : UnaryOpWithReprs T) (e : DeepEx T),
        liftedNodes nodes = true → DeepEx.new nodes bops uops = .ok e →
        liftedEx e = true) := by
  refine ⟨fun inner br bo ur vn => rfl, ?_, ?_⟩
  · intro inner br bo ur uo vn huo
    rcases uo with _ | ⟨g, gs⟩
    · exact absurd rfl huo
    · simp [liftNodes, liftChildren]
  · intro nodes bops uops e h hnew
    unfold DeepEx.new at hnew
    by_cases hlen : nodes.length = bops.ops.length + 1
    · simp only [hlen, ne_eq, not_true_eq_false, if_false, reduceIte] at hnew
      have he : e = DeepEx.compile (.mk nodes bops.reprs bops.ops uops.reprs
          uops.op (List.insertionSort (fun a b => strLe a b = true)
            (collectFoundVars nodes []))) := by
        cases hnew
        rfl
      rw [he]
      exact compile_lifted _ _ _ _ _ _ h
    · simp [hlen] at hnew

/-- Witness for claim C8: folding 3 + 4 yields a lifted single literal
expression. -/
theorem lifting_spec_witness :
    liftedEx (DeepEx.mk [DeepNode.Num (7 : Int)] [] [] [] [] []) = true := by
  exact (lifting_spec Int).2.2 [.Num 3, .Num 4]
    ⟨["+"], [⟨fun a b => a + b, 1, true⟩]⟩ UnaryOpWithReprs.new _ (by rfl) (by rfl)




mutual
/-- Variable names transitively contained in one node. -/
def namesOfNode : DeepNode T → List String
  | .Num _ => []
  | .Var _ s => [s]
  | .Expr e => namesOfEx e
/-- Variable names transitively contained in an expression. -/
def namesOfEx : DeepEx T → List String
  | .mk ns _ _ _ _ _ => namesOfNodes ns
/-- Variable names transitively contained in a node list. -/
def namesOfNodes : List (DeepNode T) → List String
  | [] => []
  | n :: r => namesOfNode n ++ namesOfNodes r
end

mutual
/-- The variable list invariant: the variable names of the expression
are sorted lexicographically, duplicate free and contain every name of
a transitive child, and every nested expression satisfies the same. -/
def varsOkEx : DeepEx T → Bool
  | .mk ns _ _ _ _ vn =>
    decide (List.Pairwise (fun a b => strLe a b = true) vn) &&
    decide vn.Nodup &&
    (namesOfNodes ns).all (fun s => vn.contains s) &&
    varsOkNodes ns
/-- The variable list invariant over a node list. -/
def varsOkNodes : List (DeepNode T) → Bool
  | [] => true
  | .Expr e :: r => varsOkEx e && varsOkNodes r
  | .Num _ :: r => varsOkNodes r
  | .Var _ _ :: r => varsOkNodes r
end

/-- The variable list invariant of one node. -/
def varsOkNode : DeepNode T → Bool
  | .Expr e => varsOkEx e
  | _ => true

mutual
/-- Agreement of every transitive Var index with the position of its
name in the given (outer) variable list. -/
def varIdxEx (vs : List String) : DeepEx T → Bool
  | .mk ns _ _ _ _ _ => varIdxNodes vs ns
/-- Index agreement over a node list. -/
def varIdxNodes (vs : List String) : List (DeepNode T) → Bool
  | [] => true
  | .Var i s :: r => (decide (i = vs.indexOf s)) && varIdxNodes vs r
  | .Expr e :: r => varIdxEx vs e && varIdxNodes vs r
  | .Num _ :: r => varIdxNodes vs r
end

/-- Index agreement of one node. -/
def varIdxNode (vs : List String) : DeepNode T → Bool
  | .Var i s => decide (i = vs.indexOf s)
  | .Expr e => varIdxEx vs e
  | .Num _ => true

/-- Elementwise form of the node list invariant. -/
lemma varsOkNodes_iff (l : List (DeepNode T)) :
    varsOkNodes l = true ↔ ∀ n ∈ l, varsOkNode n = true := by
  induction l with
  | nil => simp [varsOkNodes]
  | cons n r ih => cases n <;> simp [varsOkNodes, varsOkNode, ih]

/-- Elementwise form of the index agreement. -/
lemma varIdxNodes_iff (vs : List String) (l : List (DeepNode T)) :
    varIdxNodes vs l = true ↔ ∀ n ∈ l, varIdxNode vs n = true := by
  induction l with
  | nil => simp [varIdxNodes]
  | cons n r ih => cases n <;> simp [varIdxNodes, varIdxNode, ih]

/-- Elementwise form of a name check over a node list. -/
lemma namesOfNodes_all_iff (f : String → Bool) (l : List (DeepNode T)) :
    ((namesOfNodes l).all f = true) ↔
      ∀ n ∈ l, ∀ s ∈ namesOfNode n, f s = true := by
  induction l with
  | nil => simp [namesOfNodes]
  | cons n r ih =>
    rw [namesOfNodes]
    simp [List.all_append, ih]

/-- The lexicographic order is total. -/
lemma charsLe_total : ∀ a b : List Char, charsLe a b = true ∨ charsLe b a = true := by
  intro a
  induction a with
  | nil => intro b; left; cases b <;> rfl
  | cons c cs ih =>
    intro b
    cases b with
    | nil => right; rfl
    | cons d ds =>
      rcases Nat.lt_trichotomy c.toNat d.toNat with h | h | h
      · left; simp [charsLe, h]
      · rcases ih ds with h2 | h2
        · left; simp [charsLe, h, h2]
        · right; simp [charsLe, h.symm, h2]
      · right; simp [charsLe, h]

/-- One comparison step of the lexicographic order. -/
lemma charsLe_step (x y : Char) (xs ys : List Char)
    (h : charsLe (x :: xs) (y :: ys) = true) :
    x.toNat < y.toNat ∨ (x.toNat = y.toNat ∧ charsLe xs ys = true) := by
  by_cases h1 : x.toNat < y.toNat
  · exact Or.inl h1
  · right
    by_cases h2 : y.toNat < x.toNat
    · rw [charsLe, if_neg h1, if_pos h2] at h
      exact absurd h (by simp)
    · exact ⟨by omega, by rwa [charsLe, if_neg h1, if_neg h2] at h⟩

/-- The lexicographic order is transitive. -/
lemma charsLe_trans : ∀ a b c : List Char,
    charsLe a b = true → charsLe b c = true → charsLe a c = true := by
  intro a
  induction a with
  | nil => intro b c _ _; cases c <;> rfl
  | cons x xs ih =>
    intro b c hab hbc
    cases b with
    | nil => simp [charsLe] at hab
    | cons y ys =>
      cases c with
      | nil => simp [charsLe] at hbc
      | cons z zs =>
        rcases charsLe_step x y xs ys hab with hxy | ⟨hxy, hab2⟩ <;>
          rcases charsLe_step y z ys zs hbc with hyz | ⟨hyz, hbc2⟩
        · rw [charsLe, if_pos (by omega)]
        · rw [charsLe, if_pos (by omega)]
        · rw [charsLe, if_pos (by omega)]
        · rw [charsLe, if_neg (by omega), if_neg (by omega)]
          exact ih ys zs hab2 hbc2

/-- Totality of the name order. -/
lemma strLe_total : ∀ a b : String, strLe a b = true ∨ strLe b a = true :=
  fun a b => charsLe_total a.data b.data

/-- Transitivity of the name order. -/
lemma strLe_trans : ∀ a b c : String,
    strLe a b = true → strLe b c = true → strLe a c = true :=
  fun a b c => charsLe_trans a.data b.data c.data



/-- The names a node contributes directly to the found_vars loop. -/
def directNames : DeepNode T → List String
  | .Num _ => []
  | .Var _ s => [s]
  | .Expr e => e.varNames

/-- Membership in the name accumulation. -/
lemma addVarNames_mem (s : String) :
    ∀ (ns acc : List String), s ∈ addVarNames ns acc ↔ s ∈ ns ∨ s ∈ acc := by
  intro ns
  induction ns with
  | nil => intro acc; simp [addVarNames]
  | cons n rest ih =>
    intro acc
    rw [addVarNames]
    by_cases h : acc.contains n
    · rw [if_pos h, ih]
      have hn : n ∈ acc := List.mem_of_elem_eq_true h
      constructor
      · rintro (h1 | h1)
        · exact Or.inl (List.mem_cons_of_mem _ h1)
        · exact Or.inr h1
      · rintro (h1 | h1)
        · rcases List.mem_cons.mp h1 with h2 | h2
          · subst h2; exact Or.inr hn
          · exact Or.inl h2
        · exact Or.inr h1
    · rw [if_neg h, ih]
      simp [List.mem_append, List.mem_cons]
      tauto

/-- The accumulator is kept. -/
lemma addVarNames_sub (ns acc : List String) : acc ⊆ addVarNames ns acc :=
  fun s hs => (addVarNames_mem s ns acc).mpr (Or.inr hs)

/-- The name accumulation adds no duplicates. -/
lemma addVarNames_nodup : ∀ (ns acc : List String), acc.Nodup →
    (addVarNames ns acc).Nodup := by
  intro ns
  induction ns with
  | nil => intro acc h; exact h
  | cons n rest ih =>
    intro acc h
    rw [addVarNames]
    by_cases hc : acc.contains n
    · rw [if_pos hc]; exact ih acc h
    · rw [if_neg hc]
      refine ih _ ?_
      have hn : n ∉ acc := fun hmem => hc (List.elem_eq_true_of_mem hmem)
      simp [List.nodup_append, h, hn]

/-- Membership in the collected variable names. -/
lemma collectFoundVars_mem (s : String) :
    ∀ (ns : List (DeepNode T)) (acc : List String),
      s ∈ collectFoundVars ns acc ↔
        s ∈ acc ∨ ∃ n ∈ ns, s ∈ directNames n := by
  intro ns
  induction ns with
  | nil => intro acc; simp [collectFoundVars]
  | cons n rest ih =>
    intro acc
    cases n with
    | Num x =>
      rw [collectFoundVars, ih]
      simp [directNames]
    | Var i t =>
      rw [collectFoundVars]
      by_cases h : acc.contains t
      · rw [if_pos h, ih]
        have ht : t ∈ acc := List.mem_of_elem_eq_true h
        simp [directNames]
        constructor
        · rintro (h1 | h1)
          · exact Or.inl h1
          · exact Or.inr (Or.inr h1)
        · rintro (h1 | h1 | h1)
          · exact Or.inl h1
          · subst h1; exact Or.inl ht
          · exact Or.inr h1
      · rw [if_neg h, ih]
        simp [directNames, List.mem_append]
        tauto
    | Expr e =>
      rw [collectFoundVars, ih]
      simp [directNames, addVarNames_mem]
      tauto

/-- The collected variable names are duplicate free. -/
lemma collectFoundVars_nodup :
    ∀ (ns : List (DeepNode T)) (acc : List String), acc.Nodup →
      (collectFoundVars ns acc).Nodup := by
  intro ns
  induction ns with
  | nil => intro acc h; exact h
  | cons n rest ih =>
    intro acc h
    cases n with
    | Num x => exact ih acc h
    | Var i t =>
      rw [collectFoundVars]
      by_cases hc : acc.contains t
      · rw [if_pos hc]; exact ih acc h
      · rw [if_neg hc]
        refine ih _ ?_
        have ht : t ∉ acc := fun hmem => hc (List.elem_eq_true_of_mem hmem)
        simp [List.nodup_append, h, ht]
    | Expr e =>
      rw [collectFoundVars]
      exact ih _ (addVarNames_nodup _ _ h)



/-- Reduction of lift_nodes in the loop branch. -/
lemma liftNodes_else (n : List (DeepNode T)) (br : List String)
    (bo : List (BinOp T)) (ur : List String) (x : UnaryOp T)
    (vn : List String)
    (hpat : ∀ inner, n = [DeepNode.Expr inner] → x = [] → False)
    (hcond : ¬ (n.length = 1 ∧ x.isEmpty = true)) :
    liftNodes (.mk n br bo ur x vn) = .mk (liftChildren n) br bo ur x vn := by
  rcases n with _ | ⟨n0, ns1⟩
  · rcases x with _ | ⟨f, fs⟩ <;> simp at hcond <;> rfl
  rcases ns1 with _ | ⟨n1, ns2⟩
  · rcases x with _ | ⟨f, fs⟩
    · rcases n0 with a | ⟨i, s⟩ | inner
      · exact absurd ⟨rfl, rfl⟩ hcond
      · exact absurd ⟨rfl, rfl⟩ hcond
      · exact absurd (hpat inner rfl rfl) id
    · rcases n0 with a | ⟨i, s⟩ | inner <;> rfl
  · rcases x with _ | ⟨f, fs⟩ <;> (rcases n0 with a | ⟨i, s⟩ | inner <;> rfl)

/-- Reduction of lift_nodes on a single non expression node. -/
lemma liftNodes_single (n : List (DeepNode T)) (br : List String)
    (bo : List (BinOp T)) (ur : List String) (x : UnaryOp T)
    (vn : List String)
    (hpat : ∀ inner, n = [DeepNode.Expr inner] → x = [] → False)
    (hcond : n.length = 1 ∧ x.isEmpty = true) :
    liftNodes (.mk n br bo ur x vn) = .mk n br bo ur x vn := by
  obtain ⟨hlen, hemp⟩ := hcond
  rcases x with _ | ⟨f, fs⟩
  · rcases n with _ | ⟨n0, ns1⟩
    · simp at hlen
    rcases ns1 with _ | ⟨n1, ns2⟩
    · rcases n0 with a | ⟨i, s⟩ | inner
      · rfl
      · rfl
      · exact absurd (hpat inner rfl rfl) id
    · simp at hlen
  · simp [List.isEmpty] at hemp

/-- The loop body leaves a node alone when it is not a nested
expression with a single child and empty unary prefix. -/
lemma liftChild_id_of_no_pattern (n : DeepNode T)
    (hpat : ∀ (inner0 : DeepNode T) (br : List String) (bo : List (BinOp T))
      (ur vn : List String),
      n = DeepNode.Expr (DeepEx.mk [inner0] br bo ur [] vn) → False) :
    liftChild n = n := by
  rcases n with a | ⟨i, s⟩ | ⟨ns, br, bo, ur, uo, vn⟩
  · rfl
  · rfl
  rcases ns with _ | ⟨n0, ns1⟩
  · rcases uo with _ | ⟨f, fs⟩ <;> rfl
  rcases ns1 with _ | ⟨n1, ns2⟩
  · rcases uo with _ | ⟨f, fs⟩
    · exact absurd (hpat n0 br bo ur vn rfl) id
    · rcases n0 with a | ⟨i, s⟩ | inner <;> rfl
  · rcases uo with _ | ⟨f, fs⟩ <;> (rcases n0 with a | ⟨i, s⟩ | inner <;> rfl)

/-- Unfolded form of the variable list invariant. -/
lemma varsOkEx_iff (ns : List (DeepNode T)) (br : List String)
    (bo : List (BinOp T)) (ur : List String) (uo : UnaryOp T)
    (vn : List String) :
    varsOkEx (.mk ns br bo ur uo vn) = true ↔
      List.Pairwise (fun a b => strLe a b = true) vn ∧ vn.Nodup
      ∧ (∀ s ∈ namesOfNodes ns, s ∈ vn)
      ∧ varsOkNodes ns = true := by
  rw [varsOkEx]
  simp only [Bool.and_eq_true, decide_eq_true_eq, List.all_eq_true, and_assoc]
  constructor
  · rintro ⟨h1, h2, h3, h4⟩
    exact ⟨h1, h2, fun s hs => List.mem_of_elem_eq_true (h3 s hs), h4⟩
  · rintro ⟨h1, h2, h3, h4⟩
    exact ⟨h1, h2, fun s hs => List.elem_eq_true_of_mem (h3 s hs), h4⟩

/-- Lifting preserves the variable list invariant and never invents
new names. -/
lemma lift_varsOk :
    ∀ e : DeepEx T, varsOkEx e = true →
      varsOkEx (liftNodes e) = true
      ∧ ∀ s ∈ namesOfEx (liftNodes e), s ∈ namesOfEx e := by
  refine liftNodes.induct
    (motive_1 := fun e => varsOkEx e = true →
      varsOkEx (liftNodes e) = true
      ∧ ∀ s ∈ namesOfEx (liftNodes e), s ∈ namesOfEx e)
    (motive_2 := fun l => varsOkNodes l = true →
      varsOkNodes (liftChildren l) = true
      ∧ ∀ s ∈ namesOfNodes (liftChildren l), s ∈ namesOfNodes l)
    (motive_3 := fun n => varsOkNode n = true →
      varsOkNode (liftChild n) = true
      ∧ ∀ s ∈ namesOfNode (liftChild n), s ∈ namesOfNode n)
    ?_ ?_ ?_ ?_ ?_ ?_ ?_ ?_ ?_ ?_
  · -- Expr over single Num child
    intro br bo ur vn a h
    exact ⟨rfl, by simp [liftChild, namesOfNode, namesOfEx, namesOfNodes]⟩
  · -- Expr over single Var child
    intro br bo ur vn i s h
    refine ⟨rfl, ?_⟩
    simp [liftChild, namesOfNode, namesOfEx, namesOfNodes]
  · -- Expr over single Expr child, lifted child qualifies
    intro br bo ur vn eDeeper n2 br2 bo2 ur2 uo2 vn2 hlift hcond ih h
    have hx : varsOkEx (.mk [.Expr eDeeper] br bo ur [] vn) = true := h
    have hDeep : varsOkEx eDeeper = true := by
      have h2 : varsOkNodes [DeepNode.Expr eDeeper] = true :=
        ((varsOkEx_iff _ _ _ _ _ _).mp hx).2.2.2
      simpa [varsOkNodes] using h2
    obtain ⟨ih1, ih2⟩ := ih hDeep
    have hstep : liftChild (DeepNode.Expr (.mk [.Expr eDeeper] br bo ur [] vn))
        = .Expr (.mk n2 br2 bo2 ur2 uo2 vn2) := by
      rw [liftChild, hlift]
      simp only [hcond.1, hcond.2, and_self, if_true, reduceIte]
    show varsOkNode (liftChild (DeepNode.Expr (.mk [.Expr eDeeper] br bo ur [] vn))) = true ∧ _
    rw [hstep]
    rw [hlift] at ih1 ih2
    refine ⟨ih1, ?_⟩
    intro s hs
    simp only [namesOfNode] at hs ⊢
    simp only [namesOfEx, namesOfNodes, namesOfNode, List.append_nil]
    exact ih2 s hs
  · -- Expr over single Expr child, lifted child does not qualify
    intro br bo ur vn eDeeper n2 br2 bo2 ur2 uo2 vn2 hlift hcond ih h
    have hx : varsOkEx (.mk [.Expr eDeeper] br bo ur [] vn) = true := h
    obtain ⟨hsort, hnodup, hall, hkids⟩ := (varsOkEx_iff _ _ _ _ _ _).mp hx
    have hDeep : varsOkEx eDeeper = true := by simpa [varsOkNodes] using hkids
    obtain ⟨ih1, ih2⟩ := ih hDeep
    have hstep : liftChild (DeepNode.Expr (.mk [.Expr eDeeper] br bo ur [] vn))
        = .Expr (.mk [.Expr (.mk n2 br2 bo2 ur2 uo2 vn2)] br bo ur [] vn) := by
      rw [liftChild, hlift]
      simp only [hcond, if_false, reduceIte]
    show varsOkNode (liftChild (DeepNode.Expr (.mk [.Expr eDeeper] br bo ur [] vn))) = true ∧ _
    rw [hstep]
    rw [hlift] at ih1 ih2
    constructor
    · show varsOkEx _ = true
      rw [varsOkEx_iff]
      refine ⟨hsort, hnodup, ?_, by simpa [varsOkNodes] using ih1⟩
      intro s hs
      have hs2 : s ∈ namesOfEx (DeepEx.mk n2 br2 bo2 ur2 uo2 vn2) := by
        simpa [namesOfNodes, namesOfNode] using hs
      refine hall s ?_
      simpa [namesOfNodes, namesOfNode] using ih2 s hs2
    · intro s hs
      simp only [namesOfNode, namesOfEx, namesOfNodes, List.append_nil] at hs ⊢
      exact ih2 s (by simpa using hs)
  · -- fallback node
    intro n hpat h
    rw [liftChild_id_of_no_pattern n hpat]
    exact ⟨h, fun s hs => hs⟩
  · -- top branch of liftNodes
    intro br2 bo2 ur2 vn2 inner h
    have hstep : liftNodes (.mk [DeepNode.Expr inner] br2 bo2 ur2 [] vn2) = inner := rfl
    rw [hstep]
    obtain ⟨hsort, hnodup, hall, hkids⟩ := (varsOkEx_iff _ _ _ _ _ _).mp h
    refine ⟨by simpa [varsOkNodes] using hkids, ?_⟩
    intro s hs
    simp only [namesOfEx, namesOfNodes, namesOfNode, List.append_nil]
    exact hs
  · -- single node, no lifting
    intro n br2 bo2 ur2 vn2 x hcond hpat h
    rw [liftNodes_single n br2 bo2 ur2 x vn2 hpat hcond]
    exact ⟨h, fun s hs => hs⟩
  · -- else branch: children loop
    intro n br2 bo2 ur2 vn2 x hcond hpat ih h
    rw [liftNodes_else n br2 bo2 ur2 x vn2 hpat hcond]
    obtain ⟨hsort, hnodup, hall, hkids⟩ := (varsOkEx_iff _ _ _ _ _ _).mp h
    obtain ⟨ih1, ih2⟩ := ih hkids
    constructor
    · rw [varsOkEx_iff]
      exact ⟨hsort, hnodup, fun s hs => hall s (ih2 s hs), ih1⟩
    · exact ih2
  · -- nil children
    intro h
    exact ⟨rfl, fun s hs => hs⟩
  · -- cons children
    intro n ns ih1 ih2 h
    have hn : varsOkNode n = true ∧ varsOkNodes ns = true := by
      cases n <;> simpa [varsOkNodes, varsOkNode, Bool.and_eq_true] using h
    obtain ⟨g1, g2⟩ := ih1 hn.1
    obtain ⟨g3, g4⟩ := ih2 hn.2
    constructor
    · rw [liftChildren, varsOkNodes_iff]
      intro m hm
      rcases List.mem_cons.mp hm with hm1 | hm1
      · subst hm1; exact g1
      · exact (varsOkNodes_iff _).mp g3 m hm1
    · intro s hs
      rw [liftChildren, namesOfNodes] at hs
      rw [namesOfNodes]
      rcases List.mem_append.mp hs with hs1 | hs1
      · exact List.mem_append_left _ (g2 s hs1)
      · exact List.mem_append_right _ (g4 s hs1)



/-- Unfolded form of the index agreement. -/
lemma varIdxEx_iff (vs : List String) (ns : List (DeepNode T))
    (br : List String) (bo : List (BinOp T)) (ur : List String)
    (uo : UnaryOp T) (vn : List String) :
    varIdxEx vs (.mk ns br bo ur uo vn) = true ↔ varIdxNodes vs ns = true := by
  rw [varIdxEx]

/-- Lifting preserves index agreement. -/
lemma lift_varIdx (vs : List String) :
    ∀ e : DeepEx T, varIdxEx vs e = true → varIdxEx vs (liftNodes e) = true := by
  refine liftNodes.induct
    (motive_1 := fun e => varIdxEx vs e = true → varIdxEx vs (liftNodes e) = true)
    (motive_2 := fun l => varIdxNodes vs l = true →
      varIdxNodes vs (liftChildren l) = true)
    (motive_3 := fun n => varIdxNode vs n = true →
      varIdxNode vs (liftChild n) = true)
    ?_ ?_ ?_ ?_ ?_ ?_ ?_ ?_ ?_ ?_
  · intro br bo ur vn a h
    rfl
  · intro br bo ur vn i s h
    have hx : varIdxEx vs (.mk [.Var i s] br bo ur [] vn) = true := h
    have : varIdxNodes vs [DeepNode.Var i s] = true := (varIdxEx_iff _ _ _ _ _ _ _).mp hx
    show varIdxNode vs (DeepNode.Var i s) = true
    simpa [varIdxNodes, varIdxNode] using this
  · intro br bo ur vn eDeeper n2 br2 bo2 ur2 uo2 vn2 hlift hcond ih h
    have hx : varIdxEx vs (.mk [.Expr eDeeper] br bo ur [] vn) = true := h
    have hDeep : varIdxEx vs eDeeper = true := by
      have := (varIdxEx_iff _ _ _ _ _ _ _).mp hx
      simpa [varIdxNodes] using this
    have ih1 := ih hDeep
    have hstep : liftChild (DeepNode.Expr (.mk [.Expr eDeeper] br bo ur [] vn))
        = .Expr (.mk n2 br2 bo2 ur2 uo2 vn2) := by
      rw [liftChild, hlift]
      simp only [hcond.1, hcond.2, and_self, if_true, reduceIte]
    show varIdxNode vs (liftChild (DeepNode.Expr (.mk [.Expr eDeeper] br bo ur [] vn))) = true
    rw [hstep]
    rw [hlift] at ih1
    exact ih1
  · intro br bo ur vn eDeeper n2 br2 bo2 ur2 uo2 vn2 hlift hcond ih h
    have hx : varIdxEx vs (.mk [.Expr eDeeper] br bo ur [] vn) = true := h
    have hDeep : varIdxEx vs eDeeper = true := by
      have := (varIdxEx_iff _ _ _ _ _ _ _).mp hx
      simpa [varIdxNodes] using this
    have ih1 := ih hDeep
    have hstep : liftChild (DeepNode.Expr (.mk [.Expr eDeeper] br bo ur [] vn))
        = .Expr (.mk [.Expr (.mk n2 br2 bo2 ur2 uo2 vn2)] br bo ur [] vn) := by
      rw [liftChild, hlift]
      simp only [hcond, if_false, reduceIte]
    show varIdxNode vs (liftChild (DeepNode.Expr (.mk [.Expr eDeeper] br bo ur [] vn))) = true
    rw [hstep]
    rw [hlift] at ih1
    show varIdxEx vs _ = true
    rw [varIdxEx_iff]
    simpa [varIdxNodes] using ih1
  · intro n hpat h
    rw [liftChild_id_of_no_pattern n hpat]
    exact h
  · intro br2 bo2 ur2 vn2 inner h
    have hstep : liftNodes (.mk [DeepNode.Expr inner] br2 bo2 ur2 [] vn2) = inner := rfl
    rw [hstep]
    have := (varIdxEx_iff _ _ _ _ _ _ _).mp h
    simpa [varIdxNodes] using this
  · intro n br2 bo2 ur2 vn2 x hcond hpat h
    rw [liftNodes_single n br2 bo2 ur2 x vn2 hpat hcond]
    exact h
  · intro n br2 bo2 ur2 vn2 x hcond hpat ih h
    rw [liftNodes_else n br2 bo2 ur2 x vn2 hpat hcond]
    rw [varIdxEx_iff] at h ⊢
    exact ih h
  · intro h
    exact rfl
  · intro n ns ih1 ih2 h
    have hn : varIdxNode vs n = true ∧ varIdxNodes vs ns = true := by
      cases n <;> simpa [varIdxNodes, varIdxNode, Bool.and_eq_true] using h
    rw [liftChildren, varIdxNodes_iff]
    intro m hm
    rcases List.mem_cons.mp hm with hm1 | hm1
    · subst hm1; exact ih1 hn.1
    · exact (varIdxNodes_iff _ _).mp (ih2 hn.2) m hm1



/-- Membership in the transitive names of a node list. -/
lemma namesOfNodes_mem (s : String) (l : List (DeepNode T)) :
    s ∈ namesOfNodes l ↔ ∃ n ∈ l, s ∈ namesOfNode n := by
  induction l with
  | nil => simp [namesOfNodes]
  | cons n r ih =>
    rw [namesOfNodes]
    simp [List.mem_append, ih]

/-- Compilation preserves the variable list invariant. -/
lemma compile_varsOk (ns : List (DeepNode T)) (br : List String)
    (bo : List (BinOp T)) (ur : List String) (uo : UnaryOp T)
    (vn : List String) (h : varsOkEx (.mk ns br bo ur uo vn) = true) :
    varsOkEx (DeepEx.compile (.mk ns br bo ur uo vn)) = true := by
  obtain ⟨hl, _⟩ := lift_varsOk (.mk ns br bo ur uo vn) h
  unfold DeepEx.compile
  rcases hlift : liftNodes (.mk ns br bo ur uo vn) with ⟨ns2, br2, bo2, ur2, uo2, vn2⟩
  rw [hlift] at hl
  obtain ⟨hsort, hnodup, hall, hkids⟩ := (varsOkEx_iff _ _ _ _ _ _).mp hl
  dsimp only
  have hmem : ∀ n ∈ (foldLoop bo2
      ((prioritizedIndices bo2 ns2).zip (prioritizedIndices bo2 ns2)) ns2
      (List.replicate ns2.length false) []).1,
      varsOkNode n = true ∧ ∀ s ∈ namesOfNode n, s ∈ vn2 := by
    unfold foldLoop
    refine foldLoopFuel_pred bo2
      (fun n => varsOkNode n = true ∧ ∀ s ∈ namesOfNode n, s ∈ vn2)
      (fun x => ⟨rfl, by simp [namesOfNode]⟩) _ _ _ _ _ ?_
    intro n hn
    refine ⟨(varsOkNodes_iff _).mp hkids n hn, ?_⟩
    intro s hs
    exact hall s ((namesOfNodes_mem s ns2).mpr ⟨n, hn, hs⟩)
  rcases hnodes : (foldLoop bo2
      ((prioritizedIndices bo2 ns2).zip (prioritizedIndices bo2 ns2)) ns2
      (List.replicate ns2.length false) []).1 with _ | ⟨m0, ms⟩
  · rw [varsOkEx_iff]
    exact ⟨hsort, hnodup, by simp [namesOfNodes], rfl⟩
  rw [hnodes] at hmem
  have hok : varsOkNodes (m0 :: ms) = true := by
    rw [varsOkNodes_iff]
    exact fun n hn => (hmem n hn).1
  have hnames : ∀ s ∈ namesOfNodes (m0 :: ms), s ∈ vn2 := by
    intro s hs
    obtain ⟨n, hn, hs2⟩ := (namesOfNodes_mem s _).mp hs
    exact (hmem n hn).2 s hs2
  rcases ms with _ | ⟨m1, ms2⟩
  · rcases m0 with x | ⟨i, s⟩ | f
    · rw [varsOkEx_iff]
      exact ⟨hsort, hnodup, by simp [namesOfNodes, namesOfNode], rfl⟩
    · rw [varsOkEx_iff]
      exact ⟨hsort, hnodup, hnames, hok⟩
    · rw [varsOkEx_iff]
      exact ⟨hsort, hnodup, hnames, hok⟩
  · cases m0 <;> cases m1 <;> (rw [varsOkEx_iff]; exact ⟨hsort, hnodup, hnames, hok⟩)

/-- Compilation preserves index agreement. -/
lemma compile_varIdx (vs : List String) (ns : List (DeepNode T))
    (br : List String) (bo : List (BinOp T)) (ur : List String)
    (uo : UnaryOp T) (vn : List String)
    (h : varIdxEx vs (.mk ns br bo ur uo vn) = true) :
    varIdxEx vs (DeepEx.compile (.mk ns br bo ur uo vn)) = true := by
  have hl := lift_varIdx vs (.mk ns br bo ur uo vn) h
  unfold DeepEx.compile
  rcases hlift : liftNodes (.mk ns br bo ur uo vn) with ⟨ns2, br2, bo2, ur2, uo2, vn2⟩
  rw [hlift] at hl
  rw [varIdxEx_iff] at hl
  dsimp only
  have hmem : ∀ n ∈ (foldLoop bo2
      ((prioritizedIndices bo2 ns2).zip (prioritizedIndices bo2 ns2)) ns2
      (List.replicate ns2.length false) []).1, varIdxNode vs n = true := by
    unfold foldLoop
    exact foldLoopFuel_pred bo2 (fun n => varIdxNode vs n = true)
      (fun x => rfl) _ _ _ _ _ ((varIdxNodes_iff _ _).mp hl)
  rcases hnodes : (foldLoop bo2
      ((prioritizedIndices bo2 ns2).zip (prioritizedIndices bo2 ns2)) ns2
      (List.replicate ns2.length false) []).1 with _ | ⟨m0, ms⟩
  · rw [varIdxEx_iff]; rfl
  rw [hnodes] at hmem
  have hok : varIdxNodes vs (m0 :: ms) = true := by
    rw [varIdxNodes_iff]
    exact hmem
  rcases ms with _ | ⟨m1, ms2⟩
  · rcases m0 with x | ⟨i, s⟩ | f
    · rw [varIdxEx_iff]; rfl
    · rw [varIdxEx_iff]; exact hok
    · rw [varIdxEx_iff]; exact hok
  · cases m0 <;> cases m1 <;> (rw [varIdxEx_iff]; exact hok)



/-- Construction establishes the variable list invariant when the
nested children already satisfy it. -/
lemma new_varsOk (nodes : List (DeepNode T)) (bops : BinOpsWithReprs T)
    (uops : UnaryOpWithReprs T) (e : DeepEx T)
    (h : varsOkNodes nodes = true) (hnew : DeepEx.new nodes bops uops = .ok e) :
    varsOkEx e = true := by
  unfold DeepEx.new at hnew
  by_cases hlen : nodes.length = bops.ops.length + 1
  · simp only [hlen, ne_eq, not_true_eq_false, if_false, reduceIte] at hnew
    have he : e = DeepEx.compile (.mk nodes bops.reprs bops.ops uops.reprs
        uops.op (List.insertionSort (fun a b => strLe a b = true)
          (collectFoundVars nodes []))) := by
      cases hnew
      rfl
    rw [he]
    refine compile_varsOk _ _ _ _ _ _ ?_
    rw [varsOkEx_iff]
    haveI : IsTotal String (fun a b => strLe a b = true) := ⟨strLe_total⟩
    haveI : IsTrans String (fun a b => strLe a b = true) :=
      ⟨fun a b c => strLe_trans a b c⟩
    refine ⟨List.sorted_insertionSort _ _, ?_, ?_, h⟩
    · exact ((List.perm_insertionSort _ _).nodup_iff).mpr
        (collectFoundVars_nodup nodes [] List.nodup_nil)
    · intro s hs
      rw [(List.perm_insertionSort _ _).mem_iff, collectFoundVars_mem]
      right
      obtain ⟨n, hn, hs2⟩ := (namesOfNodes_mem s _).mp hs
      refine ⟨n, hn, ?_⟩
      cases n with
      | Num x => simp [namesOfNode] at hs2
      | Var i t => simpa [directNames, namesOfNode] using hs2
      | Expr f =>
        rcases f with ⟨ns3, br3, bo3, ur3, uo3, vn3⟩
        have hf : varsOkEx (.mk ns3 br3 bo3 ur3 uo3 vn3) = true :=
          (varsOkNodes_iff _).mp h _ hn
        obtain ⟨_, _, hall3, _⟩ := (varsOkEx_iff _ _ _ _ _ _).mp hf
        have : s ∈ namesOfNodes ns3 := by
          simpa [namesOfNode, namesOfEx] using hs2
        simpa [directNames, DeepEx.varNames] using hall3 s this
  · simp [hlen] at hnew

/-- Construction preserves index agreement. -/
lemma new_varIdx (vs : List String) (nodes : List (DeepNode T))
    (bops : BinOpsWithReprs T) (uops : UnaryOpWithReprs T) (e : DeepEx T)
    (h : varIdxNodes vs nodes = true)
    (hnew : DeepEx.new nodes bops uops = .ok e) :
    varIdxEx vs e = true := by
  unfold DeepEx.new at hnew
  by_cases hlen : nodes.length = bops.ops.length + 1
  · simp only [hlen, ne_eq, not_true_eq_false, if_false, reduceIte] at hnew
    have he : e = DeepEx.compile (.mk nodes bops.reprs bops.ops uops.reprs
        uops.op (List.insertionSort (fun a b => strLe a b = true)
          (collectFoundVars nodes []))) := by
      cases hnew
      rfl
    rw [he]
    refine compile_varIdx vs _ _ _ _ _ _ ?_
    rw [varIdxEx_iff]
    exact h
  · simp [hlen] at hnew



/-- Index agreement splits over append. -/
lemma varIdxNodes_append (vs : List String) (l1 l2 : List (DeepNode T)) :
    varIdxNodes vs (l1 ++ l2) = true ↔
      varIdxNodes vs l1 = true ∧ varIdxNodes vs l2 = true := by
  simp only [varIdxNodes_iff, List.mem_append]
  refine ⟨fun h => ⟨fun n hn => h n (Or.inl hn), fun n hn => h n (Or.inr hn)⟩,
    fun h12 n hn => ?_⟩
  rcases hn with hn | hn
  · exact h12.1 n hn
  · exact h12.2 n hn

/-- The binary resolution rule never fails. -/
lemma is_operator_binary_ok (op : Operator T) (prev : ParsedToken T) :
    ∃ b, is_operator_binary op prev = .ok b := by
  cases prev with
  | Num n => exact ⟨true, rfl⟩
  | Var s => exact ⟨true, rfl⟩
  | Op o => exact ⟨false, rfl⟩
  | Paren p => cases p with
    | Open => exact ⟨false, rfl⟩
    | Close => exact ⟨true, rfl⟩

/-- The tree builder resolves every variable index against the outer
parsed variable list, at every nesting depth. -/
lemma make_varIdx (T : Type) :
    ∀ fuel : Nat,
      (∀ (tokens : List (ParsedToken T)) (vs : List String)
        (uops : UnaryOpWithReprs T) (e : DeepEx T) (k : Nat),
        makeExpression fuel tokens vs uops = .ok (e, k) → varIdxEx vs e = true)
      ∧ (∀ (tokens : List (ParsedToken T)) (vs : List String) (idx : Nat)
          (nodes : List (DeepNode T)) (reprs : List String)
          (bops : List (BinOp T))
          (out : List (DeepNode T) × List String × List (BinOp T) × Nat),
          varIdxNodes vs nodes = true →
          makeExpressionLoop fuel tokens vs idx nodes reprs bops = .ok out →
          varIdxNodes vs out.1 = true)
      ∧ (∀ (tidx : Nat) (u : T → T) (r : String)
          (tokens : List (ParsedToken T)) (vs : List String)
          (node : DeepNode T) (fwd : Nat),
          processUnary fuel tidx u r tokens vs = .ok (node, fwd) →
          varIdxNode vs node = true) := by
  intro fuel
  induction fuel with
  | zero =>
    refine ⟨?_, ?_, ?_⟩
    · intro tokens vs uops e k hok
      simp [makeExpression] at hok
    · intro tokens vs idx nodes reprs bops out h hok
      simp [makeExpressionLoop] at hok
    · intro tidx u r tokens vs node fwd hok
      simp [processUnary] at hok
  | succ f ih =>
    obtain ⟨ihA, ihB, ihC⟩ := ih
    refine ⟨?_, ?_, ?_⟩
    · intro tokens vs uops e k hok
      rw [makeExpression] at hok
      rcases hloop : makeExpressionLoop f tokens vs 0 [] [] [] with err | ⟨ns2, rs2, bs2, i2⟩
      · simp [hloop, Bind.bind, Except.bind] at hok
      · rcases hnew : DeepEx.new ns2 ⟨rs2, bs2⟩ uops with err2 | e2
        · simp [hloop, hnew, Bind.bind, Except.bind] at hok
        · simp [hloop, hnew, Bind.bind, Except.bind] at hok
          obtain ⟨he, hk⟩ := hok
          have hns2 : varIdxNodes vs ns2 = true :=
            ihB tokens vs 0 [] [] [] (ns2, rs2, bs2, i2) rfl hloop
          rw [← he]
          exact new_varIdx vs ns2 ⟨rs2, bs2⟩ uops e2 hns2 hnew
    · intro tokens vs idx nodes reprs bops out hnodes hok
      rw [makeExpressionLoop] at hok
      rcases htok : tokens.get? idx with _ | tok
      · rw [htok] at hok
        cases hok
        exact hnodes
      rw [htok] at hok
      cases tok with
      | Num n =>
        refine ihB tokens vs (idx + 1) _ reprs bops out ?_ hok
        rw [varIdxNodes_append]
        exact ⟨hnodes, rfl⟩
      | Var name =>
        refine ihB tokens vs (idx + 1) _ _ _ out ?_ hok
        rw [varIdxNodes_append]
        refine ⟨hnodes, ?_⟩
        simp [varIdxNodes, find_var_index]
      | Op op =>
        rcases hprev : (if idx > 0 then tokens.get? (idx - 1) else none)
          with _ | prevTk
        · rw [hprev] at hok
          dsimp only at hok
          rcases hu : op.unary with erru | u
          · simp [hu, Bind.bind, Except.bind] at hok
          rcases hpu : processUnary f idx u op.opRepr tokens vs with errpu | ⟨nd, fwd⟩
          · simp [hu, hpu, Bind.bind, Except.bind] at hok
          simp only [hu, hpu, Bind.bind, Except.bind] at hok
          refine ihB tokens vs (idx + fwd) _ reprs bops out ?_ hok
          rw [varIdxNodes_append]
          refine ⟨hnodes, ?_⟩
          have := ihC idx u op.opRepr tokens vs nd fwd hpu
          cases nd <;> simp [varIdxNodes, varIdxNode] at this ⊢ <;> exact this
        · rw [hprev] at hok
          dsimp only at hok
          obtain ⟨isBin, hbin⟩ := is_operator_binary_ok op prevTk
          rw [hbin] at hok
          dsimp only [Bind.bind, Except.bind] at hok
          cases isBin with
          | true =>
            rw [if_pos rfl] at hok
            rcases hb : op.bin with errb | b
            · simp [hb, Bind.bind, Except.bind] at hok
            simp only [hb, Bind.bind, Except.bind] at hok
            exact ihB tokens vs (idx + 1) nodes _ _ out hnodes hok
          | false =>
            rw [if_neg (by simp)] at hok
            rcases hu : op.unary with erru | u
            · simp [hu, Bind.bind, Except.bind] at hok
            rcases hpu : processUnary f idx u op.opRepr tokens vs
              with errpu | ⟨nd, fwd⟩
            · simp [hu, hpu, Bind.bind, Except.bind] at hok
            simp only [hu, hpu, Bind.bind, Except.bind] at hok
            refine ihB tokens vs (idx + fwd) _ reprs bops out ?_ hok
            rw [varIdxNodes_append]
            refine ⟨hnodes, ?_⟩
            have := ihC idx u op.opRepr tokens vs nd fwd hpu
            cases nd <;> simp [varIdxNodes, varIdxNode] at this ⊢ <;> exact this
      | Paren p =>
        cases p with
        | Open =>
          rcases hme : makeExpression f (tokens.drop (idx + 1)) vs
            UnaryOpWithReprs.new with errm | ⟨e2, fwd⟩
          · simp [hme, Bind.bind, Except.bind] at hok
          simp only [hme, Bind.bind, Except.bind] at hok
          refine ihB tokens vs (idx + 1 + fwd) _ reprs bops out ?_ hok
          rw [varIdxNodes_append]
          refine ⟨hnodes, ?_⟩
          have := ihA (tokens.drop (idx + 1)) vs UnaryOpWithReprs.new e2 fwd hme
          simp [varIdxNodes, this]
        | Close =>
          cases hok
          exact hnodes
    · intro tidx u r tokens vs node fwd hok
      rw [processUnary] at hok
      rcases harg : tokens.get? (tidx +
          (u :: (gatherUnaryChain (tokens.drop (tidx + 1))).map Prod.snd).length)
        with _ | argTok
      · rw [harg] at hok
        simp at hok
      rw [harg] at hok
      cases argTok with
      | Num n =>
        cases hok
        rfl
      | Var name =>
        rcases hnew : DeepEx.new
            [DeepNode.Var (find_var_index name vs) name] BinOpsWithReprs.new
            ⟨r :: (gatherUnaryChain (tokens.drop (tidx + 1))).map Prod.fst,
              u :: (gatherUnaryChain (tokens.drop (tidx + 1))).map Prod.snd⟩
          with errn | e2
        · simp [hnew, Bind.bind, Except.bind] at hok
        simp only [hnew, Bind.bind, Except.bind] at hok
        cases hok
        show varIdxEx vs e2 = true
        refine new_varIdx vs _ _ _ e2 ?_ hnew
        simp [varIdxNodes, find_var_index]
      | Op o =>
        simp at hok
      | Paren p =>
        rcases hme : makeExpression f
            (tokens.drop (tidx +
              (u :: (gatherUnaryChain (tokens.drop (tidx + 1))).map Prod.snd).length + 1))
            vs ⟨r :: (gatherUnaryChain (tokens.drop (tidx + 1))).map Prod.fst,
              u :: (gatherUnaryChain (tokens.drop (tidx + 1))).map Prod.snd⟩
          with errm | ⟨e2, fwd2⟩
        · have hme2 : makeExpression f
              (List.drop (tidx + ((gatherUnaryChain (List.drop (tidx + 1) tokens)).length + 1) + 1) tokens)
              vs ⟨r :: (gatherUnaryChain (tokens.drop (tidx + 1))).map Prod.fst,
                u :: (gatherUnaryChain (tokens.drop (tidx + 1))).map Prod.snd⟩
              = .error errm := by simpa using hme
          simp [hme2, hme, Bind.bind, Except.bind] at hok
        simp only [hme, Bind.bind, Except.bind] at hok
        cases hok
        show varIdxEx vs e2 = true
        exact ihA _ vs _ e2 fwd2 hme



/-- Claim C2 (amended): a deep expression produced by DeepEx::new from
children that themselves satisfy the invariant has a lexicographically
sorted, duplicate free variable list containing every transitively
named variable, at every nesting depth; and the tree builder resolves
every Var index against the outer sorted parse time variable list, not
against the variable list of the enclosing sub-expression. -/
theorem variable_list_invariants (T : Type) :
    (∀ (nodes : List (DeepNode T)) (bops : BinOpsWithReprs T)
        (uops : UnaryOpWithReprs T) (e : DeepEx T),
        varsOkNodes nodes = true → DeepEx.new nodes bops uops = .ok e →
        varsOkEx e = true)
    ∧ (∀ (fuel : Nat) (tokens : List (ParsedToken T))
        (parsed_vars : List String) (uops : UnaryOpWithReprs T)
        (e : DeepEx T) (k : Nat),
        makeExpression fuel tokens parsed_vars uops = .ok (e, k) →
        varIdxEx parsed_vars e = true) :=
  ⟨fun nodes bops uops e h hnew => new_varsOk nodes bops uops e h hnew,
   fun fuel tokens vs uops e k hok => (make_varIdx T fuel).1 tokens vs uops e k hok⟩

/-- Counterexample to claim C2 as stated: building the token stream of
(y+z)*x with outer variable list x, y, z produces a nested
sub-expression whose own variable list is y, z while its Var node for
y carries index 1, the position in the outer list; the position of y
in the own list is 0. -/
theorem var_index_counterexample :
    makeExpression 20
      ([.Paren .Open, .Var "y",
        .Op ⟨"+", some ⟨fun a b => a + b, 1, true⟩, none⟩,
        .Var "z", .Paren .Close,
        .Op ⟨"*", some ⟨fun a b => a * b, 2, true⟩, none⟩, .Var "x"] :
        List (ParsedToken Int))
      ["x", "y", "z"] UnaryOpWithReprs.new
    = .ok (.mk
        [.Expr (.mk [.Var 1 "y", .Var 2 "z"] ["+"]
          [⟨fun a b => a + b, 1, true⟩] [] [] ["y", "z"]),
         .Var 0 "x"]
        ["*"] [⟨fun a b => a * b, 2, true⟩] [] [] ["x", "y", "z"], 7)
    ∧ (["y", "z"].indexOf "y" = 0) ∧ (1 ≠ 0) :=
  ⟨rfl, rfl, by decide⟩

/-- Witness for claim C2 (amended) at concrete inputs. -/
theorem variable_list_invariants_witness :
    varsOkEx (DeepEx.mk [DeepNode.Var 0 "x", DeepNode.Num (1 : Int)] ["+"]
      [⟨fun a b => a + b, 1, true⟩] [] [] ["x"]) = true
    ∧ varIdxEx ["x", "y", "z"]
      ((DeepEx.mk
        [.Expr (.mk [.Var 1 "y", .Var 2 "z"] ["+"]
          [⟨fun a b => a + b, 1, true⟩] [] [] ["y", "z"]),
         .Var 0 "x"]
        ["*"] [⟨fun a b => a * b, 2, true⟩] [] [] ["x", "y", "z"]) : DeepEx Int) = true := by
  constructor
  · exact (variable_list_invariants Int).1 [.Var 0 "x", .Num 1]
      ⟨["+"], [⟨fun a b => a + b, 1, true⟩]⟩ UnaryOpWithReprs.new
      (.mk [.Var 0 "x", .Num 1] ["+"] [⟨fun a b => a + b, 1, true⟩] [] [] ["x"])
      rfl rfl
  · exact (variable_list_invariants Int).2 20
      ([.Paren .Open, .Var "y",
        .Op ⟨"+", some ⟨fun a b => a + b, 1, true⟩, none⟩,
        .Var "z", .Paren .Close,
        .Op ⟨"*", some ⟨fun a b => a * b, 2, true⟩, none⟩, .Var "x"] :
        List (ParsedToken Int))
      ["x", "y", "z"] UnaryOpWithReprs.new _ 7 rfl


end Exmex

namespace Exmex

lemma zip_self_map_snd (l : List Nat) : (l.zip l).map Prod.snd = l := by
  induction l with
  | nil => rfl
  | cons x xs ih => simp [List.zip_cons_cons, ih]

lemma zip_self_map_fst (l : List Nat) : (l.zip l).map Prod.fst = l := by
  induction l with
  | nil => rfl
  | cons x xs ih => simp [List.zip_cons_cons, ih]

lemma getD_false_of_all_false (l : List Bool) (i : Nat)
    (h : ∀ b ∈ l, b = false) : l.getD i false = false := by
  rcases hg : l.get? i with _ | b
  · rw [List.getD_eq_getElem?_getD, ← List.get?_eq_getElem?, hg]
    rfl
  · rw [List.getD_eq_getElem?_getD, ← List.get?_eq_getElem?, hg]
    exact h b (List.get?_mem hg)

def numericSimpleNode (n : DeepNode T) : Prop :=
  (∃ x, n = DeepNode.Num x)
  ∨ (∃ x br ur vn, n = DeepNode.Expr (.mk [DeepNode.Num x] br [] ur [] vn))

lemma foldAllNum (bo : List (BinOp T)) :
    ∀ (fuel : Nat) (pairs : List (Nat × Nat)) (nodes : List (DeepNode T))
      (declined : List Bool) (used : List Nat),
      pairs.length = fuel →
      (∀ n ∈ nodes, ∃ x, n = DeepNode.Num x) →
      (∀ b ∈ declined, b = false) →
      nodes.length = pairs.length + 1 →
      (pairs.map Prod.snd).Nodup →
      (∀ p ∈ pairs, p.2 + 1 < nodes.length) →
      (∀ p ∈ pairs, p.1 < bo.length) →
      (∃ x, (foldLoopFuel bo fuel pairs nodes declined used).1 = [DeepNode.Num x])
      ∧ (foldLoopFuel bo fuel pairs nodes declined used).2.2
          = used ++ pairs.map Prod.fst := by
  intro fuel
  induction fuel with
  | zero =>
    intro pairs nodes declined used hfuel hnum hdec hlen hnodup hbound hop
    have hp : pairs = [] := List.length_eq_zero.mp hfuel
    subst hp
    rcases nodes with _ | ⟨n0, ns1⟩
    · simp at hlen
    rcases ns1 with _ | ⟨n1, ns2⟩
    · obtain ⟨x, hx⟩ := hnum n0 (List.mem_cons_self _ _)
      subst hx
      exact ⟨⟨x, rfl⟩, by simp [foldLoopFuel]⟩
    · simp at hlen
  | succ f ih =>
    intro pairs nodes declined used hfuel hnum hdec hlen hnodup hbound hop
    rcases pairs with _ | ⟨⟨bi, ni⟩, rest⟩
    · simp at hfuel
    have hni1 : ni + 1 < nodes.length := hbound _ (List.mem_cons_self _ _)
    obtain ⟨x1, hg1⟩ : ∃ x, nodes.get? ni = some (DeepNode.Num x) := by
      rcases hg : nodes.get? ni with _ | m
      · rw [List.get?_eq_none] at hg; omega
      · obtain ⟨x, hx⟩ := hnum m (List.get?_mem hg)
        exact ⟨x, by rw [hx]⟩
    obtain ⟨x2, hg2⟩ : ∃ x, nodes.get? (ni + 1) = some (DeepNode.Num x) := by
      rcases hg : nodes.get? (ni + 1) with _ | m
      · rw [List.get?_eq_none] at hg; omega
      · obtain ⟨x, hx⟩ := hnum m (List.get?_mem hg)
        exact ⟨x, by rw [hx]⟩
    obtain ⟨op, hopget⟩ : ∃ op, bo.get? bi = some op := by
      rcases hg : bo.get? bi with _ | op
      · rw [List.get?_eq_none] at hg
        have := hop _ (List.mem_cons_self _ _)
        simp at this
        omega
      · exact ⟨op, rfl⟩
    have hdecl1 := getD_false_of_all_false declined ni hdec
    have hdecl2 := getD_false_of_all_false declined (ni + 1) hdec
    rw [foldLoopFuel, hg1, hg2, hdecl1, hdecl2]
    dsimp only
    rw [if_neg (by simp), hopget]
    have hfst : (rest.map fun p => if ni < p.2 then (p.1, p.2 - 1) else p).map
        Prod.fst = rest.map Prod.fst := by
      rw [List.map_map]
      apply List.map_congr_left
      intro p hp
      by_cases h : ni < p.2 <;> simp [h]
    have hsnd : (rest.map fun p => if ni < p.2 then (p.1, p.2 - 1) else p).map
        Prod.snd = (rest.map Prod.snd).map
          (fun e => if ni < e then e - 1 else e) := by
      rw [List.map_map, List.map_map]
      apply List.map_congr_left
      intro p hp
      by_cases h : ni < p.2 <;> simp [h]
    obtain ⟨hnotmem, htail⟩ := List.nodup_cons.mp hnodup
    have hres := ih (rest.map fun p => if ni < p.2 then (p.1, p.2 - 1) else p)
      ((nodes.set ni (DeepNode.Num (op.apply x1 x2))).eraseIdx (ni + 1))
      (declined.eraseIdx (ni + 1)) (used ++ [bi])
      (by simpa using Nat.succ_injective hfuel |>.symm ▸ rfl)
      ?_ ?_ ?_ ?_ ?_ ?_
    · refine ⟨hres.1, ?_⟩
      rw [hres.2, hfst]
      simp [List.append_assoc]
    · intro n hn
      have hn2 := List.Sublist.mem hn (List.eraseIdx_sublist _ _)
      rcases List.mem_or_eq_of_mem_set hn2 with hn3 | hn3
      · exact hnum n hn3
      · exact ⟨_, hn3⟩
    · intro b hb
      exact hdec b (List.Sublist.mem hb (List.eraseIdx_sublist _ _))
    · rw [List.length_eraseIdx]
      simp only [List.length_set, List.length_map]
      have : ni + 1 < nodes.length := hni1
      rw [if_pos this]
      simp at hlen ⊢
      omega
    · rw [hsnd]
      refine List.Nodup.map_on ?_ htail
      intro e1 he1 e2 he2 hfe
      have hne1 : e1 ≠ ni := fun h => hnotmem (h ▸ he1)
      have hne2 : e2 ≠ ni := fun h => hnotmem (h ▸ he2)
      by_cases h1 : ni < e1 <;> by_cases h2 : ni < e2 <;>
        simp [h1, h2] at hfe <;> omega
    · intro p hp
      obtain ⟨q, hq, hpq⟩ := List.mem_map.mp hp
      have hqsnd : q.2 ∈ rest.map Prod.snd := List.mem_map.mpr ⟨q, hq, rfl⟩
      have hne : q.2 ≠ ni := fun h => hnotmem (h ▸ hqsnd)
      have hqb := hbound q (List.mem_cons_of_mem _ hq)
      rw [List.length_eraseIdx]
      simp only [List.length_set]
      rw [if_pos hni1]
      by_cases h : ni < q.2 <;> simp [h] at hpq <;> rw [← hpq] <;> simp <;> omega
    · intro p hp
      obtain ⟨q, hq, hpq⟩ := List.mem_map.mp hp
      have hqb := hop q (List.mem_cons_of_mem _ hq)
      by_cases h : ni < q.2 <;> simp [h] at hpq <;> rw [← hpq] <;> simpa using hqb

end Exmex

namespace Exmex

variable {T : Type}

lemma liftChild_num (n : DeepNode T) (h : numericSimpleNode n) :
    ∃ x, liftChild n = DeepNode.Num x := by
  rcases h with ⟨x, hx⟩ | ⟨x, br, ur, vn, hx⟩
  · subst hx; exact ⟨x, rfl⟩
  · subst hx; exact ⟨x, rfl⟩

lemma liftChildren_num (l : List (DeepNode T))
    (h : ∀ n ∈ l, numericSimpleNode n) :
    ∃ xs : List T, liftChildren l = xs.map DeepNode.Num
      ∧ xs.length = l.length := by
  induction l with
  | nil => exact ⟨[], rfl, rfl⟩
  | cons n r ih =>
    obtain ⟨x, hx⟩ := liftChild_num n (h n (List.mem_cons_self _ _))
    obtain ⟨xs, hxs, hlen⟩ := ih (fun m hm => h m (List.mem_cons_of_mem _ hm))
    refine ⟨x :: xs, ?_, by simp [hlen]⟩
    rw [liftChildren, hx, hxs]
    rfl

lemma compile_numeric (ns : List (DeepNode T)) (br : List String)
    (bo : List (BinOp T)) (ur : List String) (uo : UnaryOp T)
    (vn : List String)
    (hnum : ∀ n ∈ ns, numericSimpleNode n)
    (hlen : ns.length = bo.length + 1) :
    ∃ v vn2, DeepEx.compile (.mk ns br bo ur uo vn)
      = .mk [.Num v] [] [] [] [] vn2 := by
  rcases ns with _ | ⟨n0, ns1⟩
  · simp at hlen
  rcases ns1 with _ | ⟨n1, ns2⟩
  · -- a single child: the operator list must be empty
    have hbo : bo = [] := by
      simp at hlen
      exact hlen
    subst hbo
    rcases uo with _ | ⟨g, gs⟩
    · rcases hnum n0 (List.mem_cons_self _ _) with ⟨x, hx⟩ | ⟨x, br2, ur2, vn2, hx⟩
      · subst hx
        exact ⟨x, vn, rfl⟩
      · subst hx
        exact ⟨x, vn2, rfl⟩
    · obtain ⟨x, hx⟩ := liftChild_num n0 (hnum n0 (List.mem_cons_self _ _))
      have hlift : liftNodes (.mk [n0] br [] ur (g :: gs) vn)
          = .mk [DeepNode.Num x] br [] ur (g :: gs) vn := by
        have := liftNodes_else [n0] br [] ur (g :: gs) vn
          (fun inner h1 h2 => by simp at h2) (by simp)
        rw [this, liftChildren, hx, liftChildren]
      refine ⟨UnaryOp.applyAll (g :: gs) x, vn, ?_⟩
      unfold DeepEx.compile
      rw [hlift]
      rfl
  · -- at least two children: everything folds to a number
    obtain ⟨xs, hxs, hxslen⟩ := liftChildren_num (n0 :: n1 :: ns2) hnum
    have hlift : liftNodes (.mk (n0 :: n1 :: ns2) br bo ur uo vn)
        = .mk (xs.map DeepNode.Num) br bo ur uo vn := by
      rw [liftNodes_else (n0 :: n1 :: ns2) br bo ur uo vn
        (fun inner h1 h2 => by simp at h1) (by simp), hxs]
    have hperm : (prioritizedIndices bo (xs.map (DeepNode.Num (T := T)))).Perm
        (List.range bo.length) := List.perm_insertionSort _ _
    have hpriolen :
        (prioritizedIndices bo (xs.map (DeepNode.Num (T := T)))).length
          = bo.length := by
      simpa using hperm.length_eq
    have hnumlen : (xs.map (DeepNode.Num (T := T))).length = bo.length + 1 := by
      rw [List.length_map, hxslen, hlen]
    obtain ⟨⟨v, hv⟩, hused⟩ := foldAllNum bo
      ((prioritizedIndices bo (xs.map DeepNode.Num)).zip
        (prioritizedIndices bo (xs.map DeepNode.Num))).length
      ((prioritizedIndices bo (xs.map DeepNode.Num)).zip
        (prioritizedIndices bo (xs.map DeepNode.Num)))
      (xs.map DeepNode.Num)
      (List.replicate (xs.map DeepNode.Num).length false) []
      rfl
      (fun n hn => by
        obtain ⟨x, _, hx⟩ := List.mem_map.mp hn
        exact ⟨x, hx.symm⟩)
      (fun b hb => List.eq_of_mem_replicate hb)
      (by rw [hnumlen, List.length_zip, Nat.min_self, hpriolen])
      (by
        rw [zip_self_map_snd]
        exact hperm.nodup_iff.mpr (List.nodup_range _))
      (by
        intro p hp
        have h2 : p.2 ∈ prioritizedIndices bo (xs.map DeepNode.Num) := by
          have := List.mem_map_of_mem Prod.snd hp
          rwa [zip_self_map_snd] at this
        have h3 : p.2 < bo.length := by
          have := hperm.mem_iff.mp h2
          simpa using this
        rw [hnumlen]
        omega)
      (by
        intro p hp
        have h2 : p.1 ∈ prioritizedIndices bo (xs.map DeepNode.Num) := by
          have := List.mem_map_of_mem Prod.fst hp
          rwa [zip_self_map_fst] at this
        have := hperm.mem_iff.mp h2
        simpa using this)
    refine ⟨UnaryOp.applyAll uo v, vn, ?_⟩
    unfold DeepEx.compile
    rw [hlift]
    dsimp only
    rw [foldLoop, hv, hused]
    simp only [List.nil_append, zip_self_map_fst]
    have hkept : (List.range bo.length).filter
        (fun i => ¬ (prioritizedIndices bo (xs.map DeepNode.Num)).contains i)
          = [] := by
      apply List.filter_eq_nil.mpr
      intro a ha
      have hmem : a ∈ prioritizedIndices bo (xs.map DeepNode.Num) :=
        hperm.mem_iff.mpr ha
      simpa using hmem
    rw [hkept]
    rfl

end Exmex

namespace Exmex

variable {T : Type}

lemma new_numeric (nodes : List (DeepNode T)) (bops : BinOpsWithReprs T)
    (uops : UnaryOpWithReprs T) (e : DeepEx T)
    (hnum : ∀ n ∈ nodes, numericSimpleNode n)
    (hok : DeepEx.new nodes bops uops = .ok e) :
    ∃ v vn2, e = .mk [.Num v] [] [] [] [] vn2 := by
  unfold DeepEx.new at hok
  by_cases hlen : nodes.length ≠ bops.ops.length + 1
  · rw [if_pos hlen] at hok
    exact absurd hok (by simp)
  · rw [if_neg hlen] at hok
    push_neg at hlen
    obtain ⟨v, vn2, hc⟩ := compile_numeric nodes bops.reprs bops.ops uops.reprs
      uops.op _ hnum hlen
    refine ⟨v, vn2, ?_⟩
    injection hok with he
    rw [← he]
    exact hc

lemma numericSimple_append (nodes : List (DeepNode T)) (n : DeepNode T)
    (h : ∀ m ∈ nodes, numericSimpleNode m) (hn : numericSimpleNode n) :
    ∀ m ∈ nodes ++ [n], numericSimpleNode m := by
  intro m hm
  rcases List.mem_append.mp hm with h1 | h1
  · exact h m h1
  · rw [List.mem_singleton.mp h1]
    exact hn

lemma make_numeric (T : Type) :
    ∀ fuel : Nat,
      (∀ (tokens : List (ParsedToken T)) (vs : List String)
        (uops : UnaryOpWithReprs T) (e : DeepEx T) (k : Nat),
        (∀ t ∈ tokens, ∀ s, t ≠ ParsedToken.Var s) →
        makeExpression fuel tokens vs uops = .ok (e, k) →
        ∃ v vn2, e = .mk [.Num v] [] [] [] [] vn2)
      ∧ (∀ (tokens : List (ParsedToken T)) (vs : List String) (idx : Nat)
          (nodes : List (DeepNode T)) (reprs : List String)
          (bops : List (BinOp T))
          (out : List (DeepNode T) × List String × List (BinOp T) × Nat),
          (∀ t ∈ tokens, ∀ s, t ≠ ParsedToken.Var s) →
          (∀ n ∈ nodes, numericSimpleNode n) →
          makeExpressionLoop fuel tokens vs idx nodes reprs bops = .ok out →
          ∀ n ∈ out.1, numericSimpleNode n)
      ∧ (∀ (tidx : Nat) (u : T → T) (r : String)
          (tokens : List (ParsedToken T)) (vs : List String)
          (node : DeepNode T) (fwd : Nat),
          (∀ t ∈ tokens, ∀ s, t ≠ ParsedToken.Var s) →
          processUnary fuel tidx u r tokens vs = .ok (node, fwd) →
          numericSimpleNode node) := by
  intro fuel
  induction fuel with
  | zero =>
    refine ⟨?_, ?_, ?_⟩
    · intro tokens vs uops e k hnov hok
      simp [makeExpression] at hok
    · intro tokens vs idx nodes reprs bops out hnov h hok
      simp [makeExpressionLoop] at hok
    · intro tidx u r tokens vs node fwd hnov hok
      simp [processUnary] at hok
  | succ f ih =>
    obtain ⟨ihA, ihB, ihC⟩ := ih
    refine ⟨?_, ?_, ?_⟩
    · intro tokens vs uops e k hnov hok
      rw [makeExpression] at hok
      rcases hloop : makeExpressionLoop f tokens vs 0 [] [] []
        with err | ⟨ns2, rs2, bs2, i2⟩
      · simp [hloop, Bind.bind, Except.bind] at hok
      · rcases hnew : DeepEx.new ns2 ⟨rs2, bs2⟩ uops with err2 | e2
        · simp [hloop, hnew, Bind.bind, Except.bind] at hok
        · simp [hloop, hnew, Bind.bind, Except.bind] at hok
          obtain ⟨he, hk⟩ := hok
          have hns2 : ∀ n ∈ ns2, numericSimpleNode n :=
            ihB tokens vs 0 [] [] [] (ns2, rs2, bs2, i2) hnov (by simp) hloop
          obtain ⟨v, vn2, h2⟩ := new_numeric ns2 ⟨rs2, bs2⟩ uops e2 hns2 hnew
          exact ⟨v, vn2, by rw [← he, h2]⟩
    · intro tokens vs idx nodes reprs bops out hnov hnodes hok
      rw [makeExpressionLoop] at hok
      rcases htok : tokens.get? idx with _ | tok
      · rw [htok] at hok
        cases hok
        exact hnodes
      rw [htok] at hok
      cases tok with
      | Num n =>
        refine ihB tokens vs (idx + 1) _ reprs bops out hnov ?_ hok
        exact numericSimple_append nodes _ hnodes (Or.inl ⟨n, rfl⟩)
      | Var name =>
        exact absurd rfl (hnov _ (List.get?_mem htok) name)
      | Op op =>
        rcases hprev : (if idx > 0 then tokens.get? (idx - 1) else none)
          with _ | prevTk
        · rw [hprev] at hok
          dsimp only at hok
          rcases hu : op.unary with erru | u
          · simp [hu, Bind.bind, Except.bind] at hok
          rcases hpu : processUnary f idx u op.opRepr tokens vs
            with errpu | ⟨nd, fwd⟩
          · simp [hu, hpu, Bind.bind, Except.bind] at hok
          simp only [hu, hpu, Bind.bind, Except.bind] at hok
          refine ihB tokens vs (idx + fwd) _ reprs bops out hnov ?_ hok
          exact numericSimple_append nodes _ hnodes
            (ihC idx u op.opRepr tokens vs nd fwd hnov hpu)
        · rw [hprev] at hok
          dsimp only at hok
          obtain ⟨isBin, hbin⟩ := is_operator_binary_ok op prevTk
          rw [hbin] at hok
          dsimp only [Bind.bind, Except.bind] at hok
          cases isBin with
          | true =>
            rw [if_pos rfl] at hok
            rcases hb : op.bin with errb | b
            · simp [hb, Bind.bind, Except.bind] at hok
            simp only [hb, Bind.bind, Except.bind] at hok
            exact ihB tokens vs (idx + 1) nodes _ _ out hnov hnodes hok
          | false =>
            rw [if_neg (by simp)] at hok
            rcases hu : op.unary with erru | u
            · simp [hu, Bind.bind, Except.bind] at hok
            rcases hpu : processUnary f idx u op.opRepr tokens vs
              with errpu | ⟨nd, fwd⟩
            · simp [hu, hpu, Bind.bind, Except.bind] at hok
            simp only [hu, hpu, Bind.bind, Except.bind] at hok
            refine ihB tokens vs (idx + fwd) _ reprs bops out hnov ?_ hok
            exact numericSimple_append nodes _ hnodes
              (ihC idx u op.opRepr tokens vs nd fwd hnov hpu)
      | Paren p =>
        cases p with
        | Open =>
          rcases hme : makeExpression f (tokens.drop (idx + 1)) vs
            UnaryOpWithReprs.new with errm | ⟨e2, fwd⟩
          · simp [hme, Bind.bind, Except.bind] at hok
          simp only [hme, Bind.bind, Except.bind] at hok
          obtain ⟨v, vn2, he2⟩ := ihA (tokens.drop (idx + 1)) vs
            UnaryOpWithReprs.new e2 fwd
            (fun t ht s => hnov t (List.Sublist.mem ht (List.drop_sublist _ _)) s)
            hme
          refine ihB tokens vs (idx + 1 + fwd) _ reprs bops out hnov ?_ hok
          exact numericSimple_append nodes _ hnodes
            (Or.inr ⟨v, [], [], vn2, by rw [he2]⟩)
        | Close =>
          cases hok
          exact hnodes
    · intro tidx u r tokens vs node fwd hnov hok
      rw [processUnary] at hok
      rcases harg : tokens.get? (tidx +
          (u :: (gatherUnaryChain (tokens.drop (tidx + 1))).map Prod.snd).length)
        with _ | argTok
      · rw [harg] at hok
        simp at hok
      rw [harg] at hok
      cases argTok with
      | Num n =>
        cases hok
        exact Or.inl ⟨_, rfl⟩
      | Var name =>
        exact absurd rfl (hnov _ (List.get?_mem harg) name)
      | Op o =>
        simp at hok
      | Paren p =>
        rcases hme : makeExpression f
            (tokens.drop (tidx +
              (u :: (gatherUnaryChain (tokens.drop (tidx + 1))).map Prod.snd).length + 1))
            vs ⟨r :: (gatherUnaryChain (tokens.drop (tidx + 1))).map Prod.fst,
              u :: (gatherUnaryChain (tokens.drop (tidx + 1))).map Prod.snd⟩
          with errm | ⟨e2, fwd2⟩
        · have hme2 : makeExpression f
              (List.drop (tidx + ((gatherUnaryChain (List.drop (tidx + 1) tokens)).length + 1) + 1) tokens)
              vs ⟨r :: (gatherUnaryChain (tokens.drop (tidx + 1))).map Prod.fst,
                u :: (gatherUnaryChain (tokens.drop (tidx + 1))).map Prod.snd⟩
              = .error errm := by simpa using hme
          simp [hme2, hme, Bind.bind, Except.bind] at hok
        simp only [hme, Bind.bind, Except.bind] at hok
        cases hok
        obtain ⟨v, vn2, he2⟩ := ihA _ vs _ e2 fwd2
          (fun t ht s => hnov t (List.Sublist.mem ht (List.drop_sublist _ _)) s)
          hme
        exact Or.inr ⟨v, [], [], vn2, by rw [he2]⟩

end Exmex

namespace Exmex

/-- Claim C1: for an expression built from a token stream containing
no variable token, construction succeeds only with a deep tree that is
a single literal node with an empty unary prefix, and its flattening
is a single literal flat node with an empty unary prefix. -/
theorem constant_folding_totality {T : Type} (fuel : Nat)
    (tokens : List (ParsedToken T)) (vs : List String) (e : DeepEx T)
    (k : Nat)
    (hnov : ∀ t ∈ tokens, ∀ s, t ≠ ParsedToken.Var s)
    (hok : makeExpression fuel tokens vs UnaryOpWithReprs.new = .ok (e, k)) :
    ∃ v, e.nodes = [DeepNode.Num v] ∧ e.unaryOp = []
      ∧ (flatten e).nodes = [FlatNode.Num v] ∧ (flatten e).unary = [] := by
  obtain ⟨v, vn2, he⟩ :=
    (make_numeric T fuel).1 tokens vs UnaryOpWithReprs.new e k hnov hok
  subst he
  exact ⟨v, rfl, rfl, rfl, rfl⟩

/-- Witness for claim C1 at a concrete numeric token stream. -/
theorem constant_folding_totality_witness :
    (∀ t ∈ ([ParsedToken.Num 2,
        .Op ⟨"*", some ⟨fun a b => a * b, 2, true⟩, none⟩,
        .Num 3] : List (ParsedToken Int)), ∀ s, t ≠ ParsedToken.Var s)
    ∧ ∃ v, (DeepEx.mk [DeepNode.Num (6 : Int)] [] [] [] [] []).nodes
        = [DeepNode.Num v]
      ∧ (DeepEx.mk [DeepNode.Num (6 : Int)] [] [] [] [] []).unaryOp = []
      ∧ (flatten (DeepEx.mk [DeepNode.Num (6 : Int)] [] [] [] [] [])).nodes
          = [FlatNode.Num v]
      ∧ (flatten (DeepEx.mk [DeepNode.Num (6 : Int)] [] [] [] [] [])).unary
          = [] :=
  ⟨by simp,
    constant_folding_totality 20
      ([ParsedToken.Num 2,
        .Op ⟨"*", some ⟨fun a b => a * b, 2, true⟩, none⟩,
        .Num 3] : List (ParsedToken Int)) []
      (DeepEx.mk [DeepNode.Num (6 : Int)] [] [] [] [] []) 3
      (by simp) rfl⟩

end Exmex
